import Mathlib

/-
Verification of the EuroPDF-Extractor section-structuring pipeline
(src/utils/parser.py) against its specification.

Python strings are modelled as lists of characters; Python dicts as
association lists built with insert-or-overwrite semantics; fallible
Python code (exceptions) as Option-valued functions.  All concrete
character data is written as character-list literals.
-/

namespace PyPdf

/-- Python strings are modelled as lists of characters. -/
abbrev Str := List Char

/-- Characters treated as whitespace by Python str.split, str.strip and
str.isspace, restricted to the code points that can occur in this
development (the ASCII range plus NEL). -/
def isPySpace (c : Char) : Bool :=
  c = ' ' || c = '\t' || c = '\n' || c = '\r' || c.toNat = 11 || c.toNat = 12 ||
  c.toNat = 28 || c.toNat = 29 || c.toNat = 30 || c.toNat = 31 || c.toNat = 133

/-- Characters matched by the regex class backslash-s (ASCII range). -/
def isRegexSpace (c : Char) : Bool :=
  c = ' ' || c = '\t' || c = '\n' || c = '\r' || c.toNat = 11 || c.toNat = 12

/-- Python str.strip with no arguments: drop whitespace from both ends. -/
def pyStrip (s : Str) : Str :=
  ((s.dropWhile (fun c => isPySpace c)).reverse.dropWhile (fun c => isPySpace c)).reverse

/-- First index of the haystack at which the needle occurs (Python str.find
restricted to a successful result; the empty needle occurs at index 0). -/
def pyFindNat (hay needle : Str) : Option Nat :=
  match hay with
  | [] => if needle.isPrefixOf ([] : Str) then some 0 else none
  | _ :: t => if needle.isPrefixOf hay then some 0 else (pyFindNat t needle).map (· + 1)

/-- Whether the needle occurs as a contiguous substring of the haystack. -/
def occursB (needle hay : Str) : Bool := (pyFindNat hay needle).isSome

/-- Python str.find: index of the first occurrence, or -1. -/
def pyFind (hay needle : Str) : Int :=
  match pyFindNat hay needle with
  | some n => (n : Int)
  | none => -1

/-- Python str.find with a start argument: a negative start counts from the
end (clamped at 0), a start beyond the length yields -1. -/
def pyFindFrom (hay needle : Str) (start : Int) : Int :=
  let n : Int := hay.length
  let eff : Int := if start < 0 then max (n + start) 0 else start
  if eff > n then -1
  else
    match pyFindNat (hay.drop eff.toNat) needle with
    | some k => eff + k
    | none => -1

/-- Normalise a Python slice index to an absolute position in 0..length. -/
def pySliceIdx (n : Nat) (i : Int) : Nat :=
  let j : Int := if i < 0 then (n : Int) + i else i
  (max 0 (min j (n : Int))).toNat

/-- Python slice s[a:b] with full negative-index and clamping semantics. -/
def pySlice (s : Str) (a b : Int) : Str :=
  (s.take (pySliceIdx s.length b)).drop (pySliceIdx s.length a)

/-- Python slice s[a:]. -/
def pySliceFrom (s : Str) (a : Int) : Str := pySlice s a (s.length : Int)

/-- Python str.startswith. -/
def pyStartsWith (s pre : Str) : Bool := pre.isPrefixOf s

/-- Worker for pyRemoveAll; the fuel is the length of the string, enough
because every step consumes at least one character of the input. -/
def pyRemoveAllGo (needle : Str) : Nat → Str → Str
  | _, [] => []
  | 0, s => s
  | fuel + 1, c :: cs =>
    if needle.isPrefixOf (c :: cs) then pyRemoveAllGo needle fuel ((c :: cs).drop needle.length)
    else c :: pyRemoveAllGo needle fuel cs

/-- Python text.replace(needle, empty string): delete every non-overlapping
occurrence, scanning left to right. -/
def pyRemoveAll (needle s : Str) : Str :=
  if needle = [] then s else pyRemoveAllGo needle s.length s

/-- Worker for pyWsNormalize: the flag records whether the previous character
belonged to a whitespace run already emitted as one space. -/
def collapseWsGo : Bool → Str → Str
  | _, [] => []
  | prevWs, c :: cs =>
    if isRegexSpace c then
      if prevWs then collapseWsGo true cs else ' ' :: collapseWsGo true cs
    else c :: collapseWsGo false cs

/-- The regex substitution replacing every maximal whitespace run by one
space (re.sub of backslash-s-plus by a single space). -/
def pyWsNormalize (s : Str) : Str := collapseWsGo false s

/-- The text-cleanup configuration: literal characters to delete, compiled
regex substitutions (kept abstract as string transformers), and literal
boilerplate snippets removed from section bodies. -/
structure CleanupConfig where
  special_characters : List Str
  expressions : List (Str → Str)
  texts_to_remove : List Str

/-- The empty cleanup configuration (used for concrete scenarios). -/
def emptyConfig : CleanupConfig := ⟨[], [], []⟩

/-- PDFExtractor.clean_text: delete the configured literal characters, apply
the configured regex deletions, then collapse whitespace runs and strip. -/
def clean_text (cfg : CleanupConfig) (text : Str) : Str :=
  let t1 := cfg.special_characters.foldl (fun t ch => pyRemoveAll ch t) text
  let t2 := cfg.expressions.foldl (fun t f => f t) t1
  pyStrip (pyWsNormalize t2)

/-- Worker for pySplit; the accumulator holds the current word reversed. -/
def pySplitGo : Str → Str → List Str
  | acc, [] => if acc = [] then [] else [acc.reverse]
  | acc, c :: cs =>
    if isPySpace c then
      if acc = [] then pySplitGo [] cs else acc.reverse :: pySplitGo [] cs
    else pySplitGo (c :: acc) cs

/-- Python str.split with no arguments: split on whitespace runs, never
producing empty words. -/
def pySplit (s : Str) : List Str := pySplitGo [] s

/-- Python str.split with a one-character separator: empty pieces are kept,
and the empty string splits to one empty piece. -/
def pySplitChar (sep : Char) : Str → List Str
  | [] => [[]]
  | c :: cs =>
    if c = sep then [] :: pySplitChar sep cs
    else
      match pySplitChar sep cs with
      | [] => [[c]]
      | w :: ws => (c :: w) :: ws

/-- Python str.strip with a one-character argument: drop that character from
both ends. -/
def pyStripChar (x : Char) (s : Str) : Str :=
  ((s.dropWhile (· = x)).reverse.dropWhile (· = x)).reverse

/-- Python key.split(space, 1): the part before the first space and, when a
space exists, the remainder after it. -/
def pySplitOnceSpace : Str → Str × Option Str
  | [] => ([], none)
  | c :: cs =>
    if c = ' ' then ([], some cs)
    else
      let r := pySplitOnceSpace cs
      (c :: r.1, r.2)

/-- Value of a string of decimal digits. -/
def natParse (s : Str) : Nat := s.foldl (fun a c => 10 * a + (c.toNat - 48)) 0

/-- Python int() on the component strings produced by splitting a numbering:
defined exactly on nonempty all-digit strings. -/
def pyIntParse (s : Str) : Option Nat :=
  if s ≠ [] ∧ s.all (fun c => c.isDigit) then some (natParse s) else none

/-- Worker producing the decimal digits of n, most significant first; the
fuel dominates n so the recursion on n / 10 always has enough. -/
def natReprAux : Nat → Nat → Str
  | 0, _ => []
  | fuel + 1, n => if n = 0 then [] else natReprAux fuel (n / 10) ++ [Char.ofNat (48 + n % 10)]

/-- Python str() of a natural number. -/
def natRepr (n : Nat) : Str := if n = 0 then ['0'] else natReprAux (n + 1) n

/-- Python dot.join: the pieces concatenated with a dot between
neighbours. -/
def joinWithDot : List Str → Str
  | [] => []
  | [w] => w
  | w :: x :: rest => w ++ '.' :: joinWithDot (x :: rest)

/-- Render a numbering token: dot-joined decimal components with a trailing
dot (the join-plus-dot expression used throughout the repairer). -/
def renderNumbering (parts : List Nat) : Str :=
  joinWithDot (parts.map natRepr) ++ ['.']

/-- Apply a fallible parse to every element; any failure raises. -/
def optMapAll (f : α → Option β) : List α → Option (List β)
  | [] => some []
  | a :: t => do
    let b ← f a
    let r ← optMapAll f t
    some (b :: r)

/-- Parse a numbering string: strip dots from both ends, split on dots, and
parse every component as an integer; any failing component raises. -/
def parseNumbering (s : Str) : Option (List Nat) :=
  optMapAll pyIntParse (pySplitChar '.' (pyStripChar '.' s))

/-- Insert an element into a le-sorted list, keeping it sorted. -/
def insertSorted (le : α → α → Bool) (x : α) : List α → List α
  | [] => [x]
  | y :: ys => if le x y then x :: y :: ys else y :: insertSorted le x ys

/-- Insertion sort; for a total order on distinct elements this agrees with
Python sorted(). -/
def pySortedList (le : α → α → Bool) (l : List α) : List α :=
  l.foldr (insertSorted le) []

/-- Lexicographic comparison of strings by code point, Python's string
order. -/
def pyStrLe : Str → Str → Bool
  | [], _ => true
  | _ :: _, [] => false
  | a :: as, b :: bs => if a = b then pyStrLe as bs else decide (a < b)

/-- Python sorted(set(l)) for strings: distinct elements in order. -/
def pySortedSet (l : List Str) : List Str := pySortedList pyStrLe l.dedup

/-- Python sorted(set(l)) for integer indexes. -/
def pyNatSortedSet (l : List Nat) : List Nat :=
  pySortedList (fun a b => decide (a ≤ b)) l.dedup

/-- An association list standing for a Python dict from strings to strings;
insertion order is significant. -/
abbrev SecMap := List (Str × Str)

/-- Python dict assignment d[k] = v: overwrite in place when the key exists,
append otherwise. -/
def pyDictSet (d : SecMap) (k : Str) (v : Str) : SecMap :=
  if d.any (fun kv => kv.1 = k) then d.map (fun kv => if kv.1 = k then (k, v) else kv)
  else d ++ [(k, v)]

/-- Python d.get(k): the value stored under the first matching key. -/
def pyLookup (d : SecMap) (k : Str) : Option Str :=
  (d.find? (fun kv => kv.1 = k)).map Prod.snd

/-- Python d.pop(k) restricted to its removal effect. -/
def pyDictRemove (d : SecMap) (k : Str) : SecMap :=
  d.filter (fun kv => kv.1 ≠ k)

/-
Numbering Consistency Repairer: find_and_replace_numberings and its inner
generate_next_numberings (src/utils/parser.py).
-/

/-- The candidate list built by generate_next_numberings before the final
sorted(set(...)): increment of the last component first, then new
sub-levels with their nested children, sibling levels with their children,
higher-level increments, and the top-level increment.  The source parses
its argument with split, which never yields an empty component list, so the
empty case is unreachable. -/
def possibilities (parts : List Nat) : List Str :=
  match parts with
  | [] => []
  | p0 :: rest =>
    let ps := p0 :: rest
    let last := ps.getLastD 0
    let front := ps.dropLast
    let inc := renderNumbering (front ++ [last + 1])
    let subs :=
      if ps.length < 4 then
        (List.range 9).flatMap (fun x =>
          let sub := ps ++ [x + 1]
          renderNumbering sub ::
            (if sub.length < 4 then
              (List.range 9).map (fun y => renderNumbering (sub ++ [y + 1]))
             else []))
      else []
    let sibs :=
      (List.range 9).flatMap (fun x =>
        let sib := front ++ [last + 1 + x]
        renderNumbering sib ::
          (if ps.length < 4 then
            (List.range 9).map (fun y => renderNumbering (sib ++ [y + 1]))
           else []))
    let highers :=
      (List.range (ps.length - 1)).flatMap (fun i =>
        (List.range 9).map (fun x =>
          renderNumbering (ps.take (i + 1) ++ [ps.getD (i + 1) 0 + (x + 1)])))
    inc :: (subs ++ sibs ++ highers ++ [renderNumbering [p0 + 1]])

/-- generate_next_numberings: parse the current numbering (raising on a
malformed one) and return the sorted deduplicated candidate set. -/
def generate_next_numberings (cur : Str) : Option (List Str) :=
  (parseNumbering cur).map (fun parts => pySortedSet (possibilities parts))

/-- The numbering extracted from a dict key: the part before the first
space when, with its dots removed, it is a nonempty digit string;
otherwise the empty string (a blank entry). -/
def extractedNumbering (key : Str) : Str :=
  let head := (pySplitOnceSpace key).1
  let digitsOnly := pyRemoveAll ['.'] head
  if digitsOnly ≠ [] ∧ digitsOnly.all (fun c => c.isDigit) then head else []

/-- The numbering sequence of a section mapping, one entry per key. -/
def franNumberings (data : SecMap) : List Str :=
  data.map (fun kv => extractedNumbering kv.1)

/-- Python enumerate starting at a given index. -/
def pyEnum (n : Nat) : List α → List (Nat × α)
  | [] => []
  | a :: t => (n, a) :: pyEnum (n + 1) t

/-- The validation scan with a fixed anchor numbering: blank entries are
skipped, a successor in the anchor's candidate set becomes the new anchor,
any other non-blank entry is flagged.  This is the fused form of the
source's nested while loops: they advance the outer index to each found
successor and, when the scan reaches the end without a success, stop with
all flags collected. -/
def validateGo (cur : Str) : List (Nat × Str) → Option (List Nat)
  | [] => some []
  | (j, nxt) :: rest =>
    if nxt = [] then validateGo cur rest
    else
      match generate_next_numberings cur with
      | none => none
      | some g =>
        if nxt ∈ g then validateGo nxt rest
        else (validateGo cur rest).map (fun f => j :: f)

/-- Locate the first non-blank numbering and validate the remainder of the
indexed sequence against it. -/
def findNonLogical : List (Nat × Str) → Option (List Nat)
  | [] => some []
  | (_, n) :: rest => if n = [] then findNonLogical rest else validateGo n rest

/-- The sorted deduplicated non-logical indexes of a section mapping. -/
def franFlags (data : SecMap) : Option (List Nat) :=
  (findNonLogical (pyEnum 0 (franNumberings data))).map pyNatSortedSet

/-- The reconstruction value chosen from the nearest valid neighbours: open
a child of the predecessor when it is top-level and shares its first
component with the successor, otherwise the next sibling of the
predecessor (the source's second and third branches coincide). -/
def reconValue (pp np : List Nat) : Str :=
  if pp.length = 1 ∧ np.headD 0 = pp.headD 0 then
    if pp.length < 4 then renderNumbering (pp ++ [1])
    else renderNumbering (pp.dropLast ++ [pp.getLastD 0 + 1])
  else if pp.length = np.length ∧ pp.dropLast = np.dropLast then
    renderNumbering (pp.dropLast ++ [pp.getLastD 0 + 1])
  else
    renderNumbering (pp.dropLast ++ [pp.getLastD 0 + 1])

/-- One reconstruction step at a flagged index: find the nearest non-blank
numbering before and after it in the current array and, only when both
exist, overwrite the index with the reconstructed value; parsing either
neighbour can raise. -/
def reconStep (recon : List Str) (idx : Nat) : Option (List Str) :=
  let prevV := ((recon.take idx).reverse).find? (fun s => s ≠ [])
  let nextV := (recon.drop (idx + 1)).find? (fun s => s ≠ [])
  match prevV, nextV with
  | some pv, some nv =>
    match parseNumbering pv, parseNumbering nv with
    | some pp, some np => some (recon.set idx (reconValue pp np))
    | _, _ => none
  | _, _ => some recon

/-- The reconstructed numbering array after processing every flagged index
in ascending order. -/
def franRecon (data : SecMap) : Option (List Str) := do
  let flags ← franFlags data
  flags.foldlM reconStep (franNumberings data)

/-- The corrected key list: a blank entry keeps its key; a numbered entry is
rebuilt from its reconstructed numbering and, when the key had a space,
the remainder after the first space. -/
def franKeys (data : SecMap) : Option (List Str) := do
  let recon ← franRecon data
  some ((pyEnum 0 data).map (fun p =>
    let key := p.2.1
    if extractedNumbering key = [] then key
    else
      let sp := pySplitOnceSpace key
      match sp.2 with
      | some tail2 => (recon.getD p.1 []) ++ ' ' :: tail2
      | none => recon.getD p.1 []))

/-- find_and_replace_numberings: identify non-logical numbering suites,
reconstruct them between valid neighbours, and rebuild the dictionary
with the corrected titles (the runtime type checks of the source always
pass in this embedding). -/
def find_and_replace_numberings (data : SecMap) : Option SecMap := do
  let ks ← franKeys data
  some ((ks.zip (data.map Prod.snd)).foldl (fun d kv => pyDictSet d kv.1 kv.2) [])

/-
Title Variation Generator: generate_title_variations (src/utils/parser.py).
-/

/-- Characters escaped by re.escape (Python 3.7 and later): regex
metacharacters and whitespace, identified here by code point. -/
def isReSpecial (c : Char) : Bool :=
  let n := c.toNat
  n = 40 || n = 41 || n = 91 || n = 93 || n = 123 || n = 125 || n = 63 || n = 42 ||
  n = 43 || n = 45 || n = 124 || n = 94 || n = 36 || n = 92 || n = 46 || n = 38 ||
  n = 126 || n = 35 || n = 32 || n = 9 || n = 10 || n = 13 || n = 11 || n = 12

/-- re.escape: prefix every special character with a backslash. -/
def pyReEscape (s : Str) : Str :=
  s.flatMap (fun c => if isReSpecial c then ['\\', c] else [c])

/-- The regex token for one or more digits. -/
def dPlusTok : Str := ['\\', 'd', '+']

/-- The regex token for optional whitespace. -/
def sStarTok : Str := ['\\', 's', '*']

/-- The numbering placeholder of a given depth: the digit tokens joined with
a bare dot character, exactly as the source joins them. -/
def numberingPlaceholder (depth : Nat) : Str :=
  List.intercalate ['.'] (List.replicate depth dPlusTok)

/-- All keep/drop choices for the inter-word spaces, in the order produced
by itertools.product on (True, False): the leftmost choice varies
slowest and True comes first. -/
def boolCombos : Nat → List (List Bool)
  | 0 => [[]]
  | n + 1 =>
    (boolCombos n).map (fun t => true :: t) ++ (boolCombos n).map (fun t => false :: t)

/-- The spacing variant selected by one keep/drop combination: the first
word followed by each further word, with a space exactly at the kept
boundaries. -/
def spacingVariant (w0 : Str) (ws : List Str) (combo : List Bool) : Str :=
  w0 ++ (combo.zip ws).flatMap (fun p => (if p.1 then [' '] else []) ++ p.2)

/-- generate_title_variations: the spacing variants over all keep/drop
choices followed, for each spacing variant in order, by the four
numbering-prefixed escaped variants; an empty word list raises. -/
def generate_title_variations (title : Str) : Option (List Str) :=
  match pySplit title with
  | [] => none
  | w0 :: ws =>
    let spacing := (boolCombos ws.length).map (spacingVariant w0 ws)
    some (spacing ++ spacing.flatMap (fun v =>
      (List.range 4).map (fun d => numberingPlaceholder (d + 1) ++ sStarTok ++ pyReEscape v)))

/-
Boundary Refiner: extract_sections_from_processed_text and
refine_extracted_sections (src/utils/parser.py).  The fixed regular
expressions of the source are embedded as dedicated matching functions.
-/

/-- Match one digit run followed by a literal dot at the head of the
string, returning the consumed text and the rest. -/
def digitsDotSeg (s : Str) : Option (Str × Str) :=
  let d := s.takeWhile (fun c => c.isDigit)
  if d = [] then none
  else
    match s.drop d.length with
    | '.' :: rest => some (d ++ ['.'], rest)
    | _ => none

/-- Whether the regex fragment of one mandatory whitespace then one
non-newline character (backslash-s-plus then dot-plus) matches a prefix
of the string: some split of the leading whitespace run leaves a
non-newline character right after it. -/
def wsPlusAny (r : Str) : Bool :=
  let w := (r.takeWhile (fun c => isRegexSpace c)).length
  (List.range w).any (fun j =>
    match r.get? (j + 1) with
    | some c => c ≠ '\n'
    | none => false)

/-- Whether optional whitespace then one non-newline character
(backslash-s-star then dot-plus) matches a prefix of the string. -/
def wsStarAny (r : Str) : Bool :=
  let w := (r.takeWhile (fun c => isRegexSpace c)).length
  (List.range (w + 1)).any (fun j =>
    match r.get? j with
    | some c => c ≠ '\n'
    | none => false)

/-- Whether the head of the string is a non-newline character (the bare
dot-plus fragment). -/
def headAny (r : Str) : Bool :=
  match r with
  | c :: _ => c ≠ '\n'
  | [] => false

/-- re.match of three dotted digit groups then whitespace then text. -/
def matchNum3Spaced (title : Str) : Bool :=
  match digitsDotSeg title with
  | none => false
  | some (_, r1) =>
    match digitsDotSeg r1 with
    | none => false
    | some (_, r2) =>
      match digitsDotSeg r2 with
      | none => false
      | some (_, r3) => wsPlusAny r3

/-- re.match of two dotted digit groups then any further text. -/
def matchNum2Any (title : Str) : Bool :=
  match digitsDotSeg title with
  | none => false
  | some (_, r1) =>
    match digitsDotSeg r1 with
    | none => false
    | some (_, r2) => headAny r2

/-- re.match of three dotted digit groups then any further text. -/
def matchNum3Any (title : Str) : Bool :=
  match digitsDotSeg title with
  | none => false
  | some (_, r1) =>
    match digitsDotSeg r1 with
    | none => false
    | some (_, r2) =>
      match digitsDotSeg r2 with
      | none => false
      | some (_, r3) => headAny r3

/-- re.match of one dotted digit group then any further text. -/
def matchNum1Any (title : Str) : Bool :=
  match digitsDotSeg title with
  | none => false
  | some (_, r1) => headAny r1

/-- re.match of one dotted digit group, optional whitespace, then text. -/
def matchNum1Ws (title : Str) : Bool :=
  match digitsDotSeg title with
  | none => false
  | some (_, r1) => wsStarAny r1

/-- Greedy match of two or three dotted digit groups, three preferred, at
the head of the string. -/
def digitsDotTwoOrThree (s : Str) : Option (Str × Str) :=
  match digitsDotSeg s with
  | none => none
  | some (m1, r1) =>
    match digitsDotSeg r1 with
    | none => none
    | some (m2, r2) =>
      match digitsDotSeg r2 with
      | some (m3, r3) => some (m1 ++ m2 ++ m3, r3)
      | none => some (m1 ++ m2, r2)

/-- Worker for subNumGroup; one unit of fuel per scan position is enough
because every step consumes at least one character. -/
def subNumGroupGo : Nat → Str → Str
  | 0, s => s
  | _ + 1, [] => []
  | fuel + 1, c :: cs =>
    match digitsDotTwoOrThree (c :: cs) with
    | some (m, rest) => m ++ ' ' :: subNumGroupGo fuel rest
    | none => c :: subNumGroupGo fuel cs

/-- The substitution inserting a space after every match of two-or-three
dotted digit groups (re.sub of the grouped pattern by itself plus a
space), scanning left to right. -/
def subNumGroup (s : Str) : Str := subNumGroupGo s.length s

/-- The substitution deleting a leading digit group, dot and following
whitespace (re.sub anchored at the start by the empty string). -/
def stripLeadNumDotWs (s : Str) : Str :=
  match digitsDotSeg s with
  | some (_, rest) => rest.dropWhile (fun c => isRegexSpace c)
  | none => s

/-- The modified search key for a title, following the source's cascade:
depth-3 spaced titles verbatim, depth-2/3 titles with a space forced
after the numbering group, depth-1 titles with the numbering stripped,
anything else unchanged. -/
def modifiedTitle (title : Str) : Str :=
  if matchNum3Spaced title then title
  else if matchNum2Any title || matchNum3Any title then pyStrip (subNumGroup title)
  else if matchNum1Any title then stripLeadNumDotWs title
  else title

/-- The body computed for one title of the ordered title list, given the
flat mapping and the following title when one exists; the loop body of
extract_sections_from_processed_text. -/
def sectionEntry (processed : SecMap) (title : Str) (nextT : Option Str) : Str :=
  let modified := modifiedTitle title
  let current := (pyLookup processed title).getD []
  if current = [] then []
  else
    match nextT with
    | some next =>
      let modifiedNext := modifiedTitle next
      let s1 := pyFind current modified
      let s2 := if s1 = -1 then pyFind current title else s1
      let startIdx :=
        if s2 = -1 ∧ matchNum1Ws title then pyFind current (stripLeadNumDotWs title) else s2
      let e1 := pyFindFrom current modifiedNext (startIdx + (modified.length : Int))
      let endIdx := if e1 = -1 then pyFindFrom current next (startIdx + (modified.length : Int)) else e1
      if startIdx ≠ -1 then pyStrip (pySlice current startIdx endIdx) else current
    | none =>
      let s := pyFind current modified
      if s ≠ -1 then pyStrip (pySliceFrom current s) else current

/-- Each title of the list paired with its successor when one exists. -/
def pairWithNext : List Str → List (Str × Option Str)
  | [] => []
  | [t] => [(t, none)]
  | t :: t2 :: rest => (t, some t2) :: pairWithNext (t2 :: rest)

/-- extract_sections_from_processed_text: one dictionary write per title, in
order, each computed independently from the input mapping. -/
def extract_sections_from_processed_text (titles : List Str) (processed : SecMap) : SecMap :=
  (pairWithNext titles).foldl (fun d p => pyDictSet d p.1 (sectionEntry processed p.1 p.2)) []

/-- Worker for subDigitRuns: the flag records being inside the deletable
dot-or-whitespace run that follows a digit run. -/
def subDigitRunsGo : Bool → Str → Str
  | _, [] => []
  | skip, c :: cs =>
    if c.isDigit then subDigitRunsGo true cs
    else if skip ∧ (c = '.' ∨ isRegexSpace c) then subDigitRunsGo true cs
    else c :: subDigitRunsGo false cs

/-- The substitution deleting every digit run together with the dots and
whitespace that follow it (re.sub of digits-plus then the dot-or-space
class starred, by the empty string). -/
def subDigitRuns (s : Str) : Str := subDigitRunsGo false s

/-- Worker for leadNumbering: state false means inside a digit run, state
true means just after a dot; best records the longest end position of a
complete numbering (digit groups separated by dots, ending in a dot). -/
def leadNumScan : Bool → Nat → Option Nat → Str → Option Nat
  | _, _, best, [] => best
  | false, pos, best, c :: cs =>
    if c.isDigit then leadNumScan false (pos + 1) best cs
    else if c = '.' then leadNumScan true (pos + 1) (some (pos + 1)) cs
    else best
  | true, pos, best, c :: cs =>
    if c.isDigit then leadNumScan false (pos + 1) best cs
    else best

/-- re.match of a leading numbering group ending in a dot: the longest
prefix consisting of dot-separated digit runs with a trailing dot, which
is the match found by the backtracking engine on this pattern. -/
def leadNumbering (s : Str) : Option Str :=
  match s with
  | c :: _ => if c.isDigit then (leadNumScan false 0 none s).map (fun p => s.take p) else none
  | [] => none

/-- The body remaining after the leading-title removal step of
refine_extracted_sections. -/
def refineAfterTitle (title text : Str) : Str :=
  if pyStartsWith text title then pyStrip (text.drop title.length) else text

/-- The per-entry body of refine_extracted_sections: remove a leading title
occurrence, blank the text when, with digit runs removed, at most 50
characters remain, then remove a leading numbering-plus-stripped-title
prefix. -/
def refineEntry (title text : Str) : Str :=
  let t1 := refineAfterTitle title text
  let strippedTitle := pyStrip (subDigitRuns title)
  let strippedText := pyStrip (subDigitRuns t1)
  let t2 := if strippedText.length ≤ 50 then [] else t1
  match leadNumbering title with
  | some numbering =>
    let expectedStart := numbering ++ ' ' :: strippedTitle
    if pyStartsWith t2 expectedStart then pyStrip (t2.drop expectedStart.length) else t2
  | none => t2

/-- refine_extracted_sections: refine every entry of the mapping. -/
def refine_extracted_sections (m : SecMap) : SecMap :=
  m.foldl (fun d kv => pyDictSet d kv.1 (refineEntry kv.1 kv.2)) []

/-
TOC Rectifier: clean_title_suffix, search_and_replace_numbered_titles
(src/utils/parser.py).  The document source is modelled from the spec:
page_text access (spec section 6) returns the page's raw text for indexes
in range and fails otherwise.
-/

/-- A table-of-contents entry as produced by extract_toc. -/
structure TocEntry where
  level : Int
  title : Str
  page : Int
deriving DecidableEq, Repr

/-- Modelled from the spec: the document-source page_text capability of
spec section 6; an index outside the page range is an error. -/
def loadPageText (pages : List Str) (p : Int) : Option Str :=
  if 0 ≤ p ∧ p < (pages.length : Int) then pages.get? p.toNat else none

/-- Python range(a, b) over integers. -/
def intRange (a b : Int) : List Int :=
  (List.range (b - a).toNat).map (fun k => a + k)

/-- Whether a string belongs to the language of repeated capital runs or
digit runs each followed by optional whitespace: every character is a
capital, digit or whitespace and the first, if any, is a capital or
digit.  This is the trailing-group language of the clean_title_suffix
regex. -/
def inCapsDigitsWs (s : Str) : Bool :=
  s.all (fun c => c.isUpper || c.isDigit || isRegexSpace c) &&
  (match s with
   | [] => true
   | c :: _ => c.isUpper || c.isDigit)

/-- clean_title_suffix: the lazy leading group takes the shortest
newline-free prefix whose remainder lies in the trailing-group language
(the whole string always qualifies, since the trailing group can be
empty), and the result is that prefix stripped. -/
def cleanTitleSuffix (title : Str) : Str :=
  match (List.range (title.length + 1)).find? (fun p =>
      (title.take p).all (fun c => c ≠ '\n') && inCapsDigitsWs (title.drop p)) with
  | some p => pyStrip (title.take p)
  | none => title

/-- Tokens of the regex fragment generated by the rectifier's patterns:
literal characters (possibly escaped), the any-character dot, the digits
token and the optional-whitespace token. -/
inductive RTok where
  | lit (c : Char)
  | anyc
  | dplus
  | sstar

/-- Bare regex metacharacters outside the embedded fragment (by code
point); a pattern containing one unescaped is not modelled. -/
def isBareMeta (c : Char) : Bool :=
  let n := c.toNat
  n = 43 || n = 42 || n = 63 || n = 40 || n = 41 || n = 91 || n = 93 || n = 124 ||
  n = 94 || n = 36 || n = 123 || n = 125

/-- Tokenize a pattern string of the generated fragment: the digit and
whitespace tokens, escaped literals, the bare dot, and plain literal
characters. -/
def tokenizePat : Str → Option (List RTok)
  | [] => some []
  | '\\' :: 'd' :: '+' :: rest => (tokenizePat rest).map (RTok.dplus :: ·)
  | '\\' :: 's' :: '*' :: rest => (tokenizePat rest).map (RTok.sstar :: ·)
  | '\\' :: c :: rest => (tokenizePat rest).map (RTok.lit c :: ·)
  | ['\\'] => none
  | c :: rest =>
    if c = '.' then (tokenizePat rest).map (RTok.anyc :: ·)
    else if isBareMeta c then none
    else (tokenizePat rest).map (RTok.lit c :: ·)

/-- Case-insensitive character comparison (re.IGNORECASE, ASCII). -/
def ciEq (a b : Char) : Bool := a.toLower = b.toLower

/-- Backtracking prefix match of a token list against a string: a token
list matches when some way of consuming characters succeeds, which is
exactly when the backtracking engine finds a match. -/
def matchToks : List RTok → Str → Bool
  | [], _ => true
  | RTok.lit _ :: _, [] => false
  | RTok.lit c :: ts, x :: xs => ciEq c x && matchToks ts xs
  | RTok.anyc :: _, [] => false
  | RTok.anyc :: ts, x :: xs => x ≠ '\n' && matchToks ts xs
  | RTok.dplus :: ts, xs =>
    (List.range xs.length).any (fun k =>
      (xs.take (k + 1)).all (fun c => c.isDigit) && matchToks ts (xs.drop (k + 1)))
  | RTok.sstar :: ts, xs =>
    (List.range (xs.length + 1)).any (fun k =>
      (xs.take k).all (fun c => isRegexSpace c) && matchToks ts (xs.drop k))

/-- The character-by-character scan of the source: the first offset of the
page text at which the tokenized pattern matches. -/
def firstMatchPos (ts : List RTok) (pt : Str) : Option Nat :=
  (List.range pt.length).find? (fun i => matchToks ts (pt.drop i))

/-- The seven numbering-literal patterns of the rectifier, coarsest
first. -/
def numberingPatterns : List Str :=
  [ dPlusTok,
    dPlusTok ++ ['\\', '.'],
    dPlusTok ++ ['\\', '.'] ++ dPlusTok,
    dPlusTok ++ ['\\', '.'] ++ dPlusTok ++ ['\\', '.'],
    dPlusTok ++ ['\\', '.'] ++ dPlusTok ++ ['\\', '.'] ++ dPlusTok,
    dPlusTok ++ ['\\', '.'] ++ dPlusTok ++ ['\\', '.'] ++ dPlusTok ++ ['\\', '.'],
    dPlusTok ++ ['\\', '.'] ++ dPlusTok ++ ['\\', '.'] ++ dPlusTok ++ ['\\', '.'] ++ dPlusTok ]

/-- Page scan for one full pattern: clean each page of the range in order
and return the extracted numbered title at the first matching offset,
where the extraction length is the character count of the numbering
pattern plus the character count of the variant. -/
def pageScan (pages : List Str) (cfg : CleanupConfig) (pat : Str) (numLen varLen : Nat) :
    List Int → Option (Option Str)
  | [] => some none
  | p :: ps => do
    let raw ← loadPageText pages p
    let pt := clean_text cfg raw
    let ts ← tokenizePat pat
    match firstMatchPos ts pt with
    | some pos => some (some (pySlice pt (pos : Int) ((pos + numLen + varLen : Nat) : Int)))
    | none => pageScan pages cfg pat numLen varLen ps

/-- The rectifier's per-entry state: the entry's current title, the trace of
successive titles assigned to it, and the processed-text mapping. -/
abbrev SarState := Str × List Str × SecMap

/-- The variant loop for one numbering pattern: scan the pages for each
variant in order; on a match rewrite the title (with suffix cleanup when
the document lacks numbering), update the processed-text mapping under
the original title, mark found and break; with no match, break anyway
when a previous numbering pattern already found one. -/
def variantLoop (pages : List Str) (cfg : CleanupConfig) (nnf : Bool) (origTitle : Str)
    (numbering : Str) (pageIdxs : List Int) :
    Bool → List Str → SarState → Option (Bool × SarState)
  | found, [], st => some (found, st)
  | found, v :: vs, (title, trace, proc) => do
    let res ← pageScan pages cfg (numbering ++ sStarTok ++ v) numbering.length v.length pageIdxs
    match res with
    | some matched =>
      let nt := if nnf then cleanTitleSuffix matched else matched
      let proc2 :=
        match pyLookup proc origTitle with
        | some pv => pyDictSet (pyDictRemove proc origTitle) nt pv
        | none => proc
      some (true, (nt, trace ++ [nt], proc2))
    | none =>
      if found then some (found, (title, trace, proc))
      else variantLoop pages cfg nnf origTitle numbering pageIdxs found vs (title, trace, proc)

/-- The numbering-pattern loop: run the variant loop once per pattern; the
source has no break at this level, so every pattern is visited. -/
def numberingLoopGo (pages : List Str) (cfg : CleanupConfig) (nnf : Bool) (origTitle : Str)
    (vars : List Str) (pageIdxs : List Int) :
    List Str → Bool → SarState → Option (Bool × SarState)
  | [], found, st => some (found, st)
  | n :: ns, found, st => do
    let r ← variantLoop pages cfg nnf origTitle n pageIdxs found vars st
    numberingLoopGo pages cfg nnf origTitle vars pageIdxs ns r.1 r.2

/-- The rectifier's search for a single TOC entry: generate the title
variations, then run the numbering-pattern loop over the entry's page
range starting from an unmatched state. -/
def searchReplaceEntry (pages : List Str) (cfg : CleanupConfig) (nnf : Bool)
    (origTitle : Str) (startPage endPage : Int) (proc : SecMap) : Option SarState := do
  let vars ← generate_title_variations origTitle
  let r ← numberingLoopGo pages cfg nnf origTitle vars (intRange startPage (endPage + 1))
    numberingPatterns false (origTitle, [], proc)
  some r.2

/-- search_and_replace_numbered_titles: process every TOC entry in order,
each against its page range, threading the processed-text mapping and
collecting every title rewrite performed. -/
def search_and_replace_numbered_titles (pages : List Str) (cfg : CleanupConfig) (nnf : Bool) :
    List TocEntry → SecMap → Option (List TocEntry × SecMap × List Str)
  | [], proc => some ([], proc, [])
  | e :: rest, proc => do
    let endPage : Int :=
      match rest with
      | nxt :: _ => nxt.page - 1
      | [] => (pages.length : Int) - 1
    let st ← searchReplaceEntry pages cfg nnf e.title (e.page - 1) endPage proc
    let r ← search_and_replace_numbered_titles pages cfg nnf rest st.2.2
    some ({ e with title := st.1 } :: r.1, r.2.1, st.2.1 ++ r.2.2)

/-
Section Segmenter, no-numbering mode: structure_raw_text_by_toc_no_numbering
(src/utils/parser.py).
-/

/-- Whether a string lies in the language of a dotted digit chain with a
trailing dot: split on dots, the last piece is empty, all earlier pieces
are nonempty digit runs, and there is at least one digit run. -/
def isFullChainSuffix (s : Str) : Bool :=
  let parts := pySplitChar '.' s
  decide (2 ≤ parts.length) && decide (parts.getLastD [] = []) &&
  parts.dropLast.all (fun d => d ≠ [] && d.all (fun c => c.isDigit))

/-- The trailing-number cleanup of the segmenter: the lazy prefix group
takes the shortest newline-free prefix whose remainder is a complete
dotted digit chain; on a match the title becomes that prefix stripped,
otherwise it is unchanged. -/
def stripTrailingNumber (title : Str) : Str :=
  match (List.range (title.length + 1)).find? (fun p =>
      (title.take p).all (fun c => c ≠ '\n') && isFullChainSuffix (title.drop p)) with
  | some p => pyStrip (title.take p)
  | none => title

/-- A page of the document, loaded and cleaned. -/
def cleanedPage (pages : List Str) (cfg : CleanupConfig) (p : Int) : Option Str :=
  (loadPageText pages p).map (clean_text cfg)

/-- The first offset of the page text whose suffix starts with the title
(the source's index scan with startswith; an empty page has no offsets
to scan). -/
def firstStartPos (pt title : Str) : Option Nat :=
  (List.range pt.length).find? (fun i => pyStartsWith (pt.drop i) title)

/-- The page-accumulation loop of the segmenter: before the title is found,
pages contribute nothing unless the title appears, in which case the
page's tail from that offset is taken; afterwards pages are consumed
whole until the next entry's title is found, which ends the section. -/
def accumulateSection (pages : List Str) (cfg : CleanupConfig) (title : Str)
    (nextTitle : Option Str) : List Int → Str → Bool → Option Str
  | [], acc, _ => some acc
  | p :: ps, acc, started => do
    let pt ← cleanedPage pages cfg p
    if !started then
      match firstStartPos pt title with
      | some pos =>
        accumulateSection pages cfg title nextTitle ps (acc ++ pt.drop pos ++ ['\n']) true
      | none => accumulateSection pages cfg title nextTitle ps acc false
    else
      match nextTitle with
      | some nt =>
        match firstStartPos pt nt with
        | some e => some (acc ++ pt.take e)
        | none => accumulateSection pages cfg title nextTitle ps (acc ++ pt ++ ['\n']) true
      | none => accumulateSection pages cfg title nextTitle ps (acc ++ pt ++ ['\n']) true

/-- Delete each configured boilerplate snippet from the section text,
stripping after each deletion as the source does. -/
def applyRemovals (removals : List Str) (s : Str) : Str :=
  removals.foldl (fun t r => pyStrip (pyRemoveAll r t)) s

/-- The page range of a TOC entry: from the entry's page to the next
entry's page, or to the last page of the document for the final entry
(0-based, inclusive). -/
def entryPageRange (pages : List Str) (entry : TocEntry) (next : Option TocEntry) : List Int :=
  let endPage : Int :=
    match next with
    | some nxt => nxt.page - 1
    | none => (pages.length : Int) - 1
  intRange (entry.page - 1) (endPage + 1)

/-- The body computed for one TOC entry by the no-numbering segmenter:
accumulate over the entry's page range, delete boilerplate, and clean. -/
def sectionBodyFor (pages : List Str) (cfg : CleanupConfig)
    (entry : TocEntry) (next : Option TocEntry) : Option Str := do
  let title := stripTrailingNumber entry.title
  let body ← accumulateSection pages cfg title (next.map (fun e => e.title))
    (entryPageRange pages entry next) [] false
  some (clean_text cfg (applyRemovals cfg.texts_to_remove body))

/-- Each TOC entry paired with its successor when one exists. -/
def pairEntriesWithNext : List TocEntry → List (TocEntry × Option TocEntry)
  | [] => []
  | [e] => [(e, none)]
  | e :: f :: rest => (e, some f) :: pairEntriesWithNext (f :: rest)

/-- structure_raw_text_by_toc_no_numbering: one dictionary write per TOC
entry under its cleanup-stripped title. -/
def structure_raw_text_by_toc_no_numbering (toc : List TocEntry) (pages : List Str)
    (cfg : CleanupConfig) : Option SecMap :=
  (pairEntriesWithNext toc).foldlM (fun d p => do
    let body ← sectionBodyFor pages cfg p.1 p.2
    pure (pyDictSet d (stripTrailingNumber p.1.title) body)) []

/-
Pipeline Orchestrator: extract_all (src/utils/parser.py).  Each wrapped
stage is modelled by an oracle giving the net effect of its try-block on
its variable: none means the block raised before any assignment, in which
case the variable keeps its previous value; some v means the variable
holds v after the block.  The separately wrapped metadata-and-final
population block is modelled by its two fallible calls in order.  The
outer catch-all of the source is unreachable because every statement of
its body is itself wrapped, and the final JSON dump does not affect the
returned record.
-/

/-- A JSON-like value: a string or an ordered mapping. -/
inductive PyVal where
  | s (v : Str)
  | d (entries : List (Str × PyVal))

/-- A flat string mapping viewed as a JSON value. -/
def secMapVal (m : SecMap) : PyVal := PyVal.d (m.map (fun kv => (kv.1, PyVal.s kv.2)))

/-- Step 2: the structuring result; an unset no-numbering flag (step 1
failed before setting it) makes the flag access raise, leaving the
empty mapping. -/
def stage2Val (nnf : Option Bool) (o2 : Option SecMap) : SecMap :=
  match nnf with
  | none => []
  | some _ => o2.getD []

/-- Step 3: section extraction runs only on a nonempty mapping and keeps
the previous value when its block raises. -/
def stage3Val (prev : SecMap) (o3 : Option SecMap) : SecMap :=
  if prev = [] then prev else o3.getD prev

/-- Step 4: the no-numbering refinements run only when the flag is set to
true and the mapping is nonempty. -/
def stage4Val (nnf : Option Bool) (prev : SecMap) (o4 : Option SecMap) : SecMap :=
  if nnf = some true ∧ prev ≠ [] then o4.getD prev else prev

/-- Step 5: normalization, numbering repair and title removal. -/
def stage5Val (prev : SecMap) (o5 : Option SecMap) : SecMap :=
  if prev = [] then prev else o5.getD prev

/-- Step 6: the numbering-trusted title processing runs only when the flag
is set to false and the mapping is nonempty. -/
def stage6Val (nnf : Option Bool) (prev : SecMap) (o6 : Option SecMap) : SecMap :=
  if nnf = some false ∧ prev ≠ [] then o6.getD prev else prev

/-- Step 7: the leveled tree, empty when the mapping is empty or the block
raised before assigning. -/
def stage7Val (prev : SecMap) (o7 : Option PyVal) : PyVal :=
  if prev = [] then PyVal.d [] else o7.getD (PyVal.d [])

/-- The four ordered field names of the output record. -/
def metadataKey : Str := ['m', 'e', 't', 'a', 'd', 'a', 't', 'a']

/-- Field name of the nested tree. -/
def leveledKey : Str := ['l', 'e', 'v', 'e', 'l', 'e', 'd', '_', 't', 'e', 'x', 't']

/-- Field name of the flat mapping. -/
def processedKey : Str := ['p', 'r', 'o', 'c', 'e', 's', 's', 'e', 'd', '_', 't', 'e', 'x', 't']

/-- Field name of the whole-document cleaned text. -/
def cleanedKey : Str := ['c', 'l', 'e', 'a', 'n', 'e', 'd', '_', 't', 'e', 'x', 't']

/-- extract_all: run the wrapped stages in order over the oracle outcomes
and assemble the ordered four-field record; a metadata failure aborts
the population block before any field is assigned, leaving all four
defaults, and a cleaned-text failure leaves only that field default. -/
def extract_all (nnf : Option Bool) (o2 o3 o4 o5 o6 : Option SecMap) (o7 : Option PyVal)
    (oMeta : Option SecMap) (oClean : Option Str) : List (Str × PyVal) :=
  let s2 := stage2Val nnf o2
  let s3 := stage3Val s2 o3
  let s4 := stage4Val nnf s3 o4
  let s5 := stage5Val s4 o5
  let s6 := stage6Val nnf s5 o6
  let lv := stage7Val s6 o7
  let dataMeta : SecMap := match oMeta with | none => [] | some m => m
  let dataLeveled : PyVal := match oMeta with | none => PyVal.d [] | some _ => lv
  let dataProcessed : SecMap := match oMeta with | none => [] | some _ => s6
  let dataCleaned : Str := match oMeta with | none => [] | some _ => oClean.getD []
  [ (metadataKey, secMapVal dataMeta),
    (leveledKey, dataLeveled),
    (processedKey, secMapVal dataProcessed),
    (cleanedKey, PyVal.s dataCleaned) ]

/-
Helper lemmas about the Python-string layer and the numbering codec.
-/

theorem mem_insertSorted (le : α → α → Bool) (x a : α) (l : List α) :
    a ∈ insertSorted le x l ↔ a = x ∨ a ∈ l := by
  induction l with
  | nil => simp [insertSorted]
  | cons y ys ih =>
    simp only [insertSorted]
    split
    · simp [List.mem_cons]
    · simp only [List.mem_cons, ih]
      tauto

theorem mem_pySortedList (le : α → α → Bool) (a : α) (l : List α) :
    a ∈ pySortedList le l ↔ a ∈ l := by
  induction l with
  | nil => simp [pySortedList]
  | cons y ys ih =>
    simp only [pySortedList, List.foldr_cons] at *
    rw [mem_insertSorted, ih, List.mem_cons]

theorem mem_pySortedSet (a : Str) (l : List Str) :
    a ∈ pySortedSet l ↔ a ∈ l := by
  rw [pySortedSet, mem_pySortedList, List.mem_dedup]

theorem natReprAux_digits (fuel n : Nat) :
    (natReprAux fuel n).all (fun c => c.isDigit) = true := by
  induction fuel generalizing n with
  | zero => simp [natReprAux]
  | succ m ih =>
    by_cases h : n = 0
    · simp [natReprAux, h]
    · have hd : ∀ k < 10, (Char.ofNat (48 + k)).isDigit = true := by decide
      simp only [natReprAux, h, if_false, List.all_append, ih, Bool.true_and, List.all_cons,
        List.all_nil, Bool.and_true]
      exact hd (n % 10) (Nat.mod_lt _ (by norm_num))

theorem natRepr_digits (n : Nat) : (natRepr n).all (fun c => c.isDigit) = true := by
  by_cases h : n = 0
  · simp [natRepr, h]
  · simp only [natRepr, h, if_false]
    exact natReprAux_digits (n + 1) n

theorem natRepr_ne_nil (n : Nat) : natRepr n ≠ [] := by
  by_cases h : n = 0
  · simp [natRepr, h]
  · simp only [natRepr, h, if_false, natReprAux]
    simp [h]

theorem natParse_append_digit (a : Str) (c : Char) :
    natParse (a ++ [c]) = 10 * natParse a + (c.toNat - 48) := by
  simp [natParse, List.foldl_append]

theorem natParse_natReprAux (fuel n : Nat) (h : n ≤ fuel) :
    natParse (natReprAux fuel n) = n := by
  induction fuel generalizing n with
  | zero =>
    have : n = 0 := Nat.le_zero.mp h
    simp [natReprAux, this, natParse]
  | succ m ih =>
    by_cases h0 : n = 0
    · simp [natReprAux, h0, natParse]
    · have hlt : n / 10 < n := Nat.div_lt_self (Nat.pos_of_ne_zero h0) (by norm_num)
      have hle : n / 10 ≤ m := by omega
      have htn : ∀ k < 10, (Char.ofNat (48 + k)).toNat = 48 + k := by decide
      simp only [natReprAux, h0, if_false, natParse_append_digit, ih _ hle]
      rw [htn (n % 10) (Nat.mod_lt _ (by norm_num))]
      omega

theorem natParse_natRepr (n : Nat) : natParse (natRepr n) = n := by
  by_cases h : n = 0
  · simp [natRepr, h, natParse]
  · simp only [natRepr, h, if_false]
    exact natParse_natReprAux (n + 1) n (Nat.le_succ n)

theorem pyIntParse_natRepr (n : Nat) : pyIntParse (natRepr n) = some n := by
  have h1 := natRepr_ne_nil n
  have h2 := natRepr_digits n
  simp only [pyIntParse]
  rw [if_pos ⟨h1, h2⟩, natParse_natRepr]

/-- A nonempty dot-free word splits to itself alone. -/
theorem pySplitChar_dotfree (w : Str) (h : ∀ c ∈ w, c ≠ '.') :
    pySplitChar '.' w = [w] := by
  induction w with
  | nil => simp [pySplitChar]
  | cons c cs ih =>
    have hc : c ≠ '.' := h c (List.mem_cons_self c cs)
    have ihr := ih (fun d hd => h d (List.mem_cons_of_mem c hd))
    simp only [pySplitChar, hc, if_false, ihr]

/-- Splitting a dot-free word, a dot, then a tail splits off the word. -/
theorem pySplitChar_append_dot (w t : Str) (h : ∀ c ∈ w, c ≠ '.') :
    pySplitChar '.' (w ++ '.' :: t) = w :: pySplitChar '.' t := by
  induction w with
  | nil => simp [pySplitChar]
  | cons c cs ih =>
    have hc : c ≠ '.' := h c (List.mem_cons_self c cs)
    have ihr := ih (fun d hd => h d (List.mem_cons_of_mem c hd))
    simp only [List.cons_append, pySplitChar, hc, if_false, List.append_eq, ihr]

/-- The join of nonempty words is nonempty. -/
theorem joinWithDot_ne_nil (ws : List Str) (hne : ws ≠ []) (h : ∀ w ∈ ws, w ≠ []) :
    joinWithDot ws ≠ [] := by
  match ws with
  | [] => exact absurd rfl hne
  | [w] =>
    simp only [joinWithDot]
    exact h w (by simp)
  | w :: x :: rest =>
    simp only [joinWithDot]
    have : w ≠ [] := h w (by simp)
    cases w with
    | nil => exact absurd rfl this
    | cons a as => simp

/-- Splitting the dot-join of nonempty dot-free words recovers the words. -/
theorem pySplitChar_joinWithDot (ws : List Str) (hne : ws ≠ [])
    (h : ∀ w ∈ ws, w ≠ [] ∧ ∀ c ∈ w, c ≠ '.') :
    pySplitChar '.' (joinWithDot ws) = ws := by
  match ws with
  | [] => exact absurd rfl hne
  | [w] =>
    simp only [joinWithDot]
    exact pySplitChar_dotfree w (h w (by simp)).2
  | w :: x :: rest =>
    simp only [joinWithDot]
    rw [pySplitChar_append_dot w _ (h w (by simp)).2]
    have ih := pySplitChar_joinWithDot (x :: rest) (by simp)
      (fun y hy => h y (List.mem_cons_of_mem w hy))
    simp only [joinWithDot] at ih
    rw [ih]

/-- Stripping dots from a dot-wrapped string whose core neither starts nor
ends with a dot removes exactly the trailing dot. -/
theorem pyStripChar_wrap (j : Str) (h1 : ∃ c cs, j = c :: cs ∧ c ≠ '.')
    (h2 : ∃ d ds, j.reverse = d :: ds ∧ d ≠ '.') :
    pyStripChar '.' (j ++ ['.']) = j := by
  obtain ⟨c, cs, rfl, hc⟩ := h1
  obtain ⟨d, ds, hrev, hd⟩ := h2
  simp only [pyStripChar, List.cons_append]
  rw [List.dropWhile_cons_of_neg (by simpa using hc)]
  rw [show (c :: (cs ++ ['.'])) = (c :: cs) ++ ['.'] by simp]
  rw [show ((c :: cs) ++ ['.']).reverse = '.' :: (c :: cs).reverse by simp]
  rw [List.dropWhile_cons_of_pos (by simp)]
  rw [hrev, List.dropWhile_cons_of_neg (by simpa using hd), ← hrev]
  simp

/-- The join of a nonempty word list starts with the first word. -/
theorem joinWithDot_cons_form (w : Str) (ws : List Str) :
    ∃ t, joinWithDot (w :: ws) = w ++ t := by
  cases ws with
  | nil => exact ⟨[], by simp [joinWithDot]⟩
  | cons x rest => exact ⟨'.' :: joinWithDot (x :: rest), by simp [joinWithDot]⟩

/-- The reversed join of nonempty all-digit words starts with a digit. -/
theorem joinWithDot_reverse_head (ws : List Str) (hne : ws ≠ [])
    (h : ∀ w ∈ ws, w ≠ [] ∧ ∀ c ∈ w, c.isDigit) :
    ∃ d ds, (joinWithDot ws).reverse = d :: ds ∧ d.isDigit := by
  match ws with
  | [] => exact absurd rfl hne
  | [w] =>
    obtain ⟨hw, hdig⟩ := h w (by simp)
    simp only [joinWithDot]
    match hr : w.reverse with
    | [] => exact absurd (by simpa using congrArg List.reverse hr) hw
    | d :: ds =>
      refine ⟨d, ds, rfl, ?_⟩
      have : d ∈ w := by
        have : d ∈ w.reverse := by rw [hr]; exact List.mem_cons_self d ds
        simpa using this
      exact hdig d this
  | w :: x :: rest =>
    obtain ⟨d, ds, hrev, hdig⟩ := joinWithDot_reverse_head (x :: rest) (by simp)
      (fun y hy => h y (List.mem_cons_of_mem w hy))
    refine ⟨d, ds ++ ['.'] ++ w.reverse, ?_, hdig⟩
    simp only [joinWithDot] at hrev ⊢
    rw [show (w ++ '.' :: joinWithDot (x :: rest)) = (w ++ ['.']) ++ joinWithDot (x :: rest)
      by simp, List.reverse_append, hrev]
    simp

/-- Parsing the rendered components recovers the parts. -/
theorem mapM_pyIntParse_natRepr (p : List Nat) :
    optMapAll pyIntParse (p.map natRepr) = some p := by
  induction p with
  | nil => rfl
  | cons a t ih => simp [optMapAll, pyIntParse_natRepr, ih]

/-- The numbering codec round trip for any nonempty token. -/
theorem parseNumbering_renderNumbering (p : List Nat) (hne : p ≠ []) :
    parseNumbering (renderNumbering p) = some p := by
  have hws : ∀ w ∈ p.map natRepr, w ≠ [] ∧ ∀ c ∈ w, c.isDigit := by
    intro w hw
    obtain ⟨n, _, rfl⟩ := List.mem_map.mp hw
    exact ⟨natRepr_ne_nil n, fun c hc => List.all_eq_true.mp (natRepr_digits n) c hc⟩
  have hwsne : p.map natRepr ≠ [] := by
    simpa using hne
  have hdotfree : ∀ w ∈ p.map natRepr, w ≠ [] ∧ ∀ c ∈ w, c ≠ '.' := by
    intro w hw
    obtain ⟨hw1, hw2⟩ := hws w hw
    refine ⟨hw1, fun c hc => ?_⟩
    have := hw2 c hc
    intro hcd
    rw [hcd] at this
    simp [Char.isDigit] at this
  have hhead : ∃ c cs, joinWithDot (p.map natRepr) = c :: cs ∧ c ≠ '.' := by
    match hp : p.map natRepr with
    | [] => exact absurd hp hwsne
    | w :: ws =>
      obtain ⟨t, ht⟩ := joinWithDot_cons_form w ws
      obtain ⟨hw1, hw2⟩ := hdotfree w (by rw [hp]; exact List.mem_cons_self w ws)
      match hw : w with
      | [] => exact absurd rfl hw1
      | c :: cs =>
        exact ⟨c, cs ++ t, by rw [ht]; simp, hw2 c (List.mem_cons_self c cs)⟩
  have hlast : ∃ d ds, (joinWithDot (p.map natRepr)).reverse = d :: ds ∧ d ≠ '.' := by
    obtain ⟨d, ds, hrev, hdig⟩ := joinWithDot_reverse_head (p.map natRepr) hwsne hws
    refine ⟨d, ds, hrev, ?_⟩
    intro hcd
    rw [hcd] at hdig
    simp [Char.isDigit] at hdig
  rw [parseNumbering, renderNumbering, pyStripChar_wrap _ hhead hlast,
    pySplitChar_joinWithDot _ hwsne hdotfree, mapM_pyIntParse_natRepr]

/-- The candidate list starts with the increment of the last component. -/
theorem possibilities_head (ps : List Nat) (hne : ps ≠ []) :
    ∃ t, possibilities ps =
      renderNumbering (ps.dropLast ++ [ps.getLastD 0 + 1]) :: t := by
  match ps with
  | [] => exact absurd rfl hne
  | p0 :: rest => exact ⟨_, rfl⟩

/-
Claim theorems C6 and C7.
-/

/-- C6: for every numbering token of depth 1 through 4 (a sequence of
positive integers), parsing the rendered canonical string, the dot-joined
components with a trailing dot, yields back the same token:
parseNumbering (renderNumbering token) = some token. -/
theorem numbering_roundtrip (p : List Nat) (hd1 : 1 ≤ p.length) (_hd4 : p.length ≤ 4)
    (_hpos : ∀ x ∈ p, 0 < x) :
    parseNumbering (renderNumbering p) = some p := by
  have hne : p ≠ [] := by
    intro h
    rw [h] at hd1
    simp at hd1
  exact parseNumbering_renderNumbering p hne

/-- Witness for C6 at the concrete depth-2 token 2.1. -/
theorem numbering_roundtrip_witness :
    parseNumbering (renderNumbering [2, 1]) = some [2, 1] :=
  numbering_roundtrip [2, 1] (by decide) (by decide) (by decide)

/-- C7: for every well-formed numbering token, the token obtained by
incrementing its last component by one renders to a member of the
candidate-next set produced by generate_next_numberings for that
token. -/
theorem increment_last_mem_candidates (q : List Nat) (a : Nat)
    (_hpos : ∀ x ∈ q ++ [a], 0 < x) :
    ∃ cands, generate_next_numberings (renderNumbering (q ++ [a])) = some cands ∧
      renderNumbering (q ++ [a + 1]) ∈ cands := by
  have hne : q ++ [a] ≠ [] := by simp
  have hparse := parseNumbering_renderNumbering (q ++ [a]) hne
  refine ⟨pySortedSet (possibilities (q ++ [a])), ?_, ?_⟩
  · rw [generate_next_numberings, hparse]
    rfl
  · rw [mem_pySortedSet]
    obtain ⟨t, ht⟩ := possibilities_head (q ++ [a]) hne
    rw [ht, List.dropLast_concat, List.getLastD_concat]
    exact List.mem_cons_self _ _

/-- Witness for C7 at the concrete token 2.1. -/
theorem increment_last_mem_candidates_witness :
    ∃ cands, generate_next_numberings (renderNumbering [2, 1]) = some cands ∧
      renderNumbering [2, 2] ∈ cands :=
  increment_last_mem_candidates [2] 1 (by decide)

/-
Title Variation Generator lemmas and claim theorem C8.
-/

/-- The words joined with single spaces: the canonical fully-spaced
variant. -/
def joinWithSpaceSep : List Str → Str
  | [] => []
  | [w] => w
  | w :: x :: rest => w ++ ' ' :: joinWithSpaceSep (x :: rest)

theorem boolCombos_length (n : Nat) : (boolCombos n).length = 2 ^ n := by
  induction n with
  | zero => rfl
  | succ m ih =>
    simp only [boolCombos, List.length_append, List.length_map, ih]
    omega

theorem boolCombos_mem_length (n : Nat) (c : List Bool) (h : c ∈ boolCombos n) :
    c.length = n := by
  induction n generalizing c with
  | zero =>
    simp only [boolCombos, List.mem_singleton] at h
    simp [h]
  | succ m ih =>
    simp only [boolCombos, List.mem_append, List.mem_map] at h
    rcases h with ⟨t, ht, rfl⟩ | ⟨t, ht, rfl⟩ <;> simp [ih t ht]

theorem boolCombos_nodup (n : Nat) : (boolCombos n).Nodup := by
  induction n with
  | zero => simp [boolCombos]
  | succ m ih =>
    simp only [boolCombos]
    refine List.Nodup.append ?_ ?_ ?_
    · exact ih.map (fun a b h => by injection h)
    · exact ih.map (fun a b h => by injection h)
    · intro x hx hy
      simp only [List.mem_map] at hx hy
      obtain ⟨t, _, rfl⟩ := hx
      obtain ⟨u, _, hu⟩ := hy
      injection hu with h1 _
      exact Bool.noConfusion h1

theorem replicate_true_mem_boolCombos (n : Nat) :
    List.replicate n true ∈ boolCombos n := by
  induction n with
  | zero => simp [boolCombos]
  | succ m ih =>
    simp only [boolCombos, List.mem_append, List.replicate_succ]
    exact Or.inl (List.mem_map.mpr ⟨List.replicate m true, ih, rfl⟩)

/-- Every word produced by the whitespace split is nonempty and free of
whitespace characters. -/
theorem pySplitGo_words (s : Str) : ∀ acc, (∀ ch ∈ acc, isPySpace ch = false) →
    ∀ w ∈ pySplitGo acc s, w ≠ [] ∧ ∀ ch ∈ w, isPySpace ch = false := by
  induction s with
  | nil =>
    intro acc hacc w hw
    simp only [pySplitGo] at hw
    split at hw
    · simp at hw
    · rename_i hne
      simp only [List.mem_singleton] at hw
      subst hw
      constructor
      · simpa using hne
      · intro ch hch
        exact hacc ch (by simpa using hch)
  | cons c cs ih =>
    intro acc hacc w hw
    simp only [pySplitGo] at hw
    by_cases hc : isPySpace c = true
    · rw [if_pos hc] at hw
      split at hw
      · exact ih [] (by simp) w hw
      · rename_i hne
        rcases List.mem_cons.mp hw with rfl | hw2
        · constructor
          · simpa using hne
          · intro ch hch
            exact hacc ch (by simpa using hch)
        · exact ih [] (by simp) w hw2
    · rw [if_neg hc] at hw
      refine ih (c :: acc) ?_ w hw
      intro ch hch
      rcases List.mem_cons.mp hch with rfl | hch2
      · simpa using hc
      · exact hacc ch hch2

theorem pySplit_words (s : Str) :
    ∀ w ∈ pySplit s, w ≠ [] ∧ ∀ ch ∈ w, isPySpace ch = false :=
  pySplitGo_words s [] (by simp)

/-- The joined tail of a spacing variant determines the keep/drop
choices, for nonempty space-free words. -/
theorem spacingTail_inj (ws : List Str) :
    ∀ c1 c2 : List Bool, c1.length = ws.length → c2.length = ws.length →
    (∀ w ∈ ws, w ≠ [] ∧ ∀ ch ∈ w, isPySpace ch = false) →
    (c1.zip ws).flatMap (fun p => (if p.1 then [' '] else []) ++ p.2) =
      (c2.zip ws).flatMap (fun p => (if p.1 then [' '] else []) ++ p.2) →
    c1 = c2 := by
  induction ws with
  | nil =>
    intro c1 c2 h1 h2 _ _
    rw [List.length_eq_zero.mp h1, List.length_eq_zero.mp h2]
  | cons w rest ih =>
    intro c1 c2 h1 h2 hw heq
    cases c1 with
    | nil => simp at h1
    | cons b1 t1 =>
    cases c2 with
    | nil => simp at h2
    | cons b2 t2 =>
    obtain ⟨hwne, hwsp⟩ := hw w (List.mem_cons_self w rest)
    cases w with
    | nil => exact absurd rfl hwne
    | cons ch wtail =>
    have hchsp : isPySpace ch = false := hwsp ch (List.mem_cons_self ch wtail)
    have hchne : ch ≠ ' ' := by
      intro h
      rw [h] at hchsp
      simp [isPySpace] at hchsp
    simp only [List.zip_cons_cons, List.flatMap_cons] at heq
    have htail : ∀ w2 ∈ rest, w2 ≠ [] ∧ ∀ ch2 ∈ w2, isPySpace ch2 = false :=
      fun w2 hw2 => hw w2 (List.mem_cons_of_mem _ hw2)
    have hlen1 : t1.length = rest.length := by simpa using h1
    have hlen2 : t2.length = rest.length := by simpa using h2
    cases b1 <;> cases b2
    · simp only [if_neg, List.nil_append, List.append_assoc,
        List.append_cancel_left_eq] at heq
      rw [ih t1 t2 hlen1 hlen2 htail (by simpa using heq)]
    · exfalso
      have hh := congrArg List.head? heq
      simp at hh
      exact hchne hh
    · exfalso
      have hh := congrArg List.head? heq
      simp at hh
      exact hchne hh.symm
    · simp only [if_pos, List.cons_append, List.append_assoc, List.cons.injEq,
        List.append_cancel_left_eq, true_and] at heq
      rw [ih t1 t2 hlen1 hlen2 htail (by simpa using heq)]

/-- Distinct keep/drop choices give distinct spacing variants. -/
theorem spacingVariant_injOn (w0 : Str) (ws : List Str)
    (hws : ∀ w ∈ ws, w ≠ [] ∧ ∀ ch ∈ w, isPySpace ch = false) :
    ∀ c1 ∈ boolCombos ws.length, ∀ c2 ∈ boolCombos ws.length,
      spacingVariant w0 ws c1 = spacingVariant w0 ws c2 → c1 = c2 := by
  intro c1 h1 c2 h2 heq
  simp only [spacingVariant] at heq
  exact spacingTail_inj ws c1 c2 (boolCombos_mem_length _ _ h1)
    (boolCombos_mem_length _ _ h2) hws (List.append_cancel_left heq)

/-- The all-keep choice produces the canonical fully-spaced variant. -/
theorem spacingVariant_replicate_true (w0 : Str) (ws : List Str) :
    spacingVariant w0 ws (List.replicate ws.length true) = joinWithSpaceSep (w0 :: ws) := by
  induction ws generalizing w0 with
  | nil => simp [spacingVariant, joinWithSpaceSep]
  | cons x rest ih =>
    have hx := ih x
    simp only [spacingVariant] at hx
    simp only [spacingVariant, List.length_cons, List.replicate_succ, List.zip_cons_cons,
      List.flatMap_cons, joinWithSpaceSep]
    rw [← hx]
    simp

/-- C8: for a title of W whitespace-separated words, the generator produces
exactly the 2 to the power W minus 1 spacing variants, one per keep/drop
choice of each inter-word space and all distinct, including the fully
spaced variant, followed, for each spacing variant in order, by the four
variants prefixed with a numbering placeholder of one to four digit-group
levels and a flexible-whitespace token, with the title text escaped for
regex use. -/
theorem title_variations_spec (title : Str) (w0 : Str) (ws : List Str)
    (hsplit : pySplit title = w0 :: ws) :
    ∃ spacing,
      spacing = (boolCombos ws.length).map (spacingVariant w0 ws) ∧
      generate_title_variations title =
        some (spacing ++ spacing.flatMap (fun v =>
          (List.range 4).map (fun d => numberingPlaceholder (d + 1) ++ sStarTok ++ pyReEscape v))) ∧
      spacing.length = 2 ^ ((w0 :: ws).length - 1) ∧
      spacing.Nodup ∧
      joinWithSpaceSep (w0 :: ws) ∈ spacing := by
  have hws : ∀ w ∈ ws, w ≠ [] ∧ ∀ ch ∈ w, isPySpace ch = false := by
    intro w hw
    exact pySplit_words title w (by rw [hsplit]; exact List.mem_cons_of_mem w0 hw)
  refine ⟨(boolCombos ws.length).map (spacingVariant w0 ws), rfl, ?_, ?_, ?_, ?_⟩
  · simp only [generate_title_variations, hsplit]
  · simp [boolCombos_length]
  · exact (boolCombos_nodup ws.length).map_on (spacingVariant_injOn w0 ws hws)
  · rw [← spacingVariant_replicate_true w0 ws]
    exact List.mem_map.mpr ⟨_, replicate_true_mem_boolCombos ws.length, rfl⟩

/-- Witness for C8 at the concrete two-word title a b. -/
theorem title_variations_spec_witness :
    ∃ spacing,
      spacing = (boolCombos [['b']].length).map (spacingVariant ['a'] [['b']]) ∧
      generate_title_variations ['a', ' ', 'b'] =
        some (spacing ++ spacing.flatMap (fun v =>
          (List.range 4).map (fun d => numberingPlaceholder (d + 1) ++ sStarTok ++ pyReEscape v))) ∧
      spacing.length = 2 ^ ((['a'] :: [['b']]).length - 1) ∧
      spacing.Nodup ∧
      joinWithSpaceSep (['a'] :: [['b']]) ∈ spacing :=
  title_variations_spec ['a', ' ', 'b'] ['a'] [['b']] (by decide)

/-
Dictionary lemmas and the Boundary Refiner claim C2.
-/

theorem pyFindNat_of_not_occurs (hay needle : Str) (h : occursB needle hay = false) :
    pyFindNat hay needle = none := by
  cases hf : pyFindNat hay needle with
  | none => rfl
  | some n =>
    rw [occursB, hf] at h
    simp at h

theorem pyFind_of_not_occurs (hay needle : Str) (h : occursB needle hay = false) :
    pyFind hay needle = -1 := by
  rw [pyFind, pyFindNat_of_not_occurs hay needle h]

/-- Overwriting every entry keyed k with (k, v) makes k look up v, provided
some entry has key k. -/
theorem pyLookup_map_set (d : SecMap) (k v : Str)
    (h : d.any (fun kv => kv.1 = k) = true) :
    pyLookup (d.map (fun kv => if kv.1 = k then (k, v) else kv)) k = some v := by
  induction d with
  | nil => simp at h
  | cons kv rest ih =>
    simp only [List.any_cons, Bool.or_eq_true] at h
    simp only [List.map_cons]
    by_cases hk : kv.1 = k
    · rw [if_pos hk]
      simp only [pyLookup]
      rw [List.find?_cons_of_pos _ (by simp)]
      rfl
    · rw [if_neg hk]
      simp only [pyLookup]
      rw [List.find?_cons_of_neg _ (by simpa using hk)]
      refine ih ?_
      rcases h with h | h
      · exact absurd (by simpa using h) hk
      · exact h

/-- Rewriting entries keyed k does not change the lookup of another key. -/
theorem pyLookup_map_set_other (d : SecMap) (k kq v : Str) (hne : k ≠ kq) :
    pyLookup (d.map (fun kv => if kv.1 = k then (k, v) else kv)) kq = pyLookup d kq := by
  induction d with
  | nil => simp
  | cons kv rest ih =>
    simp only [List.map_cons]
    by_cases hk : kv.1 = k
    · rw [if_pos hk]
      simp only [pyLookup]
      rw [List.find?_cons_of_neg _ (by simpa using hne),
        List.find?_cons_of_neg _ (by simp [hk, hne])]
      exact ih
    · rw [if_neg hk]
      simp only [pyLookup]
      by_cases hq : kv.1 = kq
      · rw [List.find?_cons_of_pos _ (by simpa using hq),
          List.find?_cons_of_pos _ (by simpa using hq)]
      · rw [List.find?_cons_of_neg _ (by simpa using hq),
          List.find?_cons_of_neg _ (by simpa using hq)]
        exact ih

/-- Appending a fresh entry keyed k makes k look up its value. -/
theorem pyLookup_append_single (d : SecMap) (k v : Str)
    (h : List.find? (fun kv => decide (kv.1 = k)) d = none) :
    pyLookup (d ++ [(k, v)]) k = some v := by
  simp only [pyLookup, List.find?_append, h]
  simp

/-- Appending an entry keyed k does not change the lookup of another key. -/
theorem pyLookup_append_single_other (d : SecMap) (k kq v : Str) (hne : k ≠ kq) :
    pyLookup (d ++ [(k, v)]) kq = pyLookup d kq := by
  simp only [pyLookup, List.find?_append]
  cases hf : List.find? (fun kv => decide (kv.1 = kq)) d with
  | some p => simp
  | none => simp [hne]

/-- Writing k always makes k look up the written value. -/
theorem pyLookup_set_self (d : SecMap) (k v : Str) :
    pyLookup (pyDictSet d k v) k = some v := by
  simp only [pyDictSet]
  split
  · rename_i h
    exact pyLookup_map_set d k v h
  · rename_i h
    refine pyLookup_append_single d k v ?_
    rw [List.find?_eq_none]
    intro x hx
    simp only [decide_eq_true_eq]
    intro hxk
    exact h (List.any_eq_true.mpr ⟨x, hx, by simpa using hxk⟩)

/-- Writing one key does not change the lookup of another. -/
theorem pyLookup_set_other (d : SecMap) (k kq v : Str) (hne : k ≠ kq) :
    pyLookup (pyDictSet d k v) kq = pyLookup d kq := by
  simp only [pyDictSet]
  split
  · exact pyLookup_map_set_other d k kq v hne
  · exact pyLookup_append_single_other d k kq v hne

/-- If every written entry keyed k carries the value v, and k is either
written at some point or already maps to v, then k maps to v after the
whole fold of dictionary writes. -/
theorem pyLookup_foldl_set {α : Type} (f : α → Str) (g : α → Str) (entries : List α)
    (k v : Str) :
    ∀ d : SecMap, (∀ p ∈ entries, f p = k → g p = v) →
    (k ∈ entries.map f ∨ pyLookup d k = some v) →
    pyLookup (entries.foldl (fun d p => pyDictSet d (f p) (g p)) d) k = some v := by
  induction entries with
  | nil =>
    intro d _ hd
    rcases hd with h | h
    · simp at h
    · simpa using h
  | cons p rest ih =>
    intro d hall hd
    simp only [List.foldl_cons]
    by_cases hp : f p = k
    · refine ih _ (fun q hq => hall q (List.mem_cons_of_mem p hq)) (Or.inr ?_)
      have hv : g p = v := hall p (List.mem_cons_self p rest) hp
      rw [hp, hv]
      exact pyLookup_set_self d k v
    · refine ih _ (fun q hq => hall q (List.mem_cons_of_mem p hq)) ?_
      rcases hd with hmem | hlook
      · simp only [List.map_cons, List.mem_cons] at hmem
        rcases hmem with rfl | hmem2
        · exact absurd rfl hp
        · exact Or.inl hmem2
      · refine Or.inr ?_
        rw [pyLookup_set_other d (f p) k (g p) hp]
        exact hlook

/-- The keys written by the section extraction are exactly the titles. -/
theorem pairWithNext_map_fst (ts : List Str) : (pairWithNext ts).map Prod.fst = ts := by
  match ts with
  | [] => rfl
  | [t] => rfl
  | t :: t2 :: rest =>
    simp only [pairWithNext, List.map_cons, List.cons.injEq, true_and]
    exact pairWithNext_map_fst (t2 :: rest)

/-- When neither the search key nor the fallback keys occur in the body,
the per-title boundary refinement keeps the body unchanged, whatever the
following title is. -/
theorem sectionEntry_unchanged (processed : SecMap) (title : Str) (nextT : Option Str)
    (h1 : occursB (modifiedTitle title) ((pyLookup processed title).getD []) = false)
    (h2 : occursB title ((pyLookup processed title).getD []) = false)
    (h3 : occursB (stripLeadNumDotWs title) ((pyLookup processed title).getD []) = false) :
    sectionEntry processed title nextT = (pyLookup processed title).getD [] := by
  have f1 := pyFind_of_not_occurs _ _ h1
  have f2 := pyFind_of_not_occurs _ _ h2
  have f3 := pyFind_of_not_occurs _ _ h3
  simp only [sectionEntry]
  by_cases hc : (pyLookup processed title).getD [] = []
  · rw [if_pos hc, hc]
  · rw [if_neg hc]
    cases nextT with
    | some next =>
      simp only [f1, f2, f3, if_pos rfl]
      simp
    | none =>
      simp only [f1]
      simp

/-- C2: for every title in the flat mapping given to the Boundary Refiner,
if neither the title's search key nor its fallbacks, the raw title and
the numbering-stripped title, occur in the body text assigned to that
title, the refined body equals the unrefined body unchanged; in
particular a failed search never turns a nonempty body into the empty
string. -/
theorem refiner_failed_search_keeps_body (titles : List Str) (processed : SecMap)
    (title : Str) (hmem : title ∈ titles)
    (h1 : occursB (modifiedTitle title) ((pyLookup processed title).getD []) = false)
    (h2 : occursB title ((pyLookup processed title).getD []) = false)
    (h3 : occursB (stripLeadNumDotWs title) ((pyLookup processed title).getD []) = false) :
    pyLookup (extract_sections_from_processed_text titles processed) title =
      some ((pyLookup processed title).getD []) := by
  rw [extract_sections_from_processed_text]
  refine pyLookup_foldl_set (fun p => p.1) (fun p => sectionEntry processed p.1 p.2)
    (pairWithNext titles) title ((pyLookup processed title).getD []) [] ?_ ?_
  · intro p _ hp
    simp only at hp
    simp only [hp]
    exact sectionEntry_unchanged processed title p.2 h1 h2 h3
  · rw [show (pairWithNext titles).map (fun p => p.1) = (pairWithNext titles).map Prod.fst
      from rfl, pairWithNext_map_fst]
    exact Or.inl hmem

/-- Witness for C2: a title absent from its own body is kept with its body
unchanged. -/
theorem refiner_failed_search_keeps_body_witness :
    pyLookup (extract_sections_from_processed_text [['A']] [(['A'], ['z', 'z', 'z'])]) ['A'] =
      some ((pyLookup [(['A'], ['z', 'z', 'z'])] ['A']).getD []) :=
  refiner_failed_search_keeps_body [['A']] [(['A'], ['z', 'z', 'z'])] ['A']
    (by decide) (by decide) (by decide) (by decide)

/-
Claim C9: the short-section threshold of refine_extracted_sections.
-/

/-- A nonempty prefix is never a prefix of the empty string. -/
theorem pyStartsWith_nil_of_ne (pre : Str) (h : pre ≠ []) :
    pyStartsWith [] pre = false := by
  cases pre with
  | nil => exact absurd rfl h
  | cons c cs => rfl

/-- C9 counterexample: for the entry with title 1 and body 1 followed by
sixty dots, the body with all digit-and-dot runs removed is empty, hence
of length at most 50, yet the refined body is the sixty dots, not the
empty string: the threshold is applied to the body after leading-title
removal, not to the body itself. -/
theorem refine_threshold_counterexample :
    (pyStrip (subDigitRuns ('1' :: List.replicate 60 '.'))).length ≤ 50 ∧
    refine_extracted_sections [(['1'], '1' :: List.replicate 60 '.')] =
      [(['1'], List.replicate 60 '.')] ∧
    List.replicate 60 '.' ≠ ([] : Str) := by
  refine ⟨by decide, by decide, by decide⟩

/-- C9 amended, per entry: when the body after the leading-title removal
step, with all digit runs and their trailing dots and whitespace
removed and stripped, has length at most 50, the refined body is the
empty string. -/
theorem refineEntry_short_is_blanked (title text : Str)
    (h : (pyStrip (subDigitRuns (refineAfterTitle title text))).length ≤ 50) :
    refineEntry title text = [] := by
  simp only [refineEntry]
  rw [if_pos h]
  cases hn : leadNumbering title with
  | none => rfl
  | some numbering =>
    have hfalse := pyStartsWith_nil_of_ne (numbering ++ ' ' :: pyStrip (subDigitRuns title))
      (by simp)
    simp [hfalse]

/-- C9 amended: for every entry of the mapping whose body, after the
leading-title removal, passes the 50-character threshold once digit
runs are removed, the refined mapping assigns that title the empty
string. -/
theorem refine_short_sections_blanked (m : SecMap) (title : Str)
    (hmem : title ∈ m.map Prod.fst)
    (hshort : ∀ kv ∈ m, kv.1 = title →
      (pyStrip (subDigitRuns (refineAfterTitle kv.1 kv.2))).length ≤ 50) :
    pyLookup (refine_extracted_sections m) title = some [] := by
  rw [refine_extracted_sections]
  refine pyLookup_foldl_set (fun kv => kv.1) (fun kv => refineEntry kv.1 kv.2) m title [] []
    ?_ (Or.inl (by simpa using hmem))
  intro kv hkv hk
  simp only at hk
  simp only
  exact refineEntry_short_is_blanked kv.1 kv.2 (hshort kv hkv hk)

/-- Witness for the amended C9 on a two-character body. -/
theorem refine_short_sections_blanked_witness :
    pyLookup (refine_extracted_sections [(['1'], ['a', 'b'])]) ['1'] = some [] :=
  refine_short_sections_blanked [(['1'], ['a', 'b'])] ['1'] (by decide) (by decide)

/-
Claim C5: the no-numbering Section Segmenter on a title found nowhere.
-/

/-- Whether the (already stripped) search title starts nowhere on any
loadable page of the given index list. -/
def titleAbsentOn (pages : List Str) (cfg : CleanupConfig) (title : Str)
    (idxs : List Int) : Bool :=
  idxs.all (fun p =>
    match cleanedPage pages cfg p with
    | some pt => (firstStartPos pt title).isNone
    | none => true)

/-- When the title starts nowhere on the loadable pages of the range, the
accumulation loop never starts a section: it either fails on an
unloadable page or returns its accumulator unchanged. -/
theorem accumulate_absent (pages : List Str) (cfg : CleanupConfig) (title : Str)
    (nextT : Option Str) (idxs : List Int)
    (habs : titleAbsentOn pages cfg title idxs = true) :
    ∀ acc, accumulateSection pages cfg title nextT idxs acc false = none ∨
      accumulateSection pages cfg title nextT idxs acc false = some acc := by
  induction idxs with
  | nil =>
    intro acc
    exact Or.inr rfl
  | cons p ps ih =>
    intro acc
    simp only [titleAbsentOn, List.all_cons, Bool.and_eq_true] at habs
    obtain ⟨hp, hps⟩ := habs
    simp only [accumulateSection, cleanedPage] at hp ⊢
    cases hload : (loadPageText pages p).map (clean_text cfg) with
    | none => exact Or.inl rfl
    | some pt =>
      rw [hload] at hp
      simp only [Option.isNone_iff_eq_none] at hp
      simp only [Option.some_bind, Option.bind_eq_bind, hp, Bool.not_false, if_pos]
      exact ih hps acc

/-- Removing boilerplate from the empty string yields the empty string. -/
theorem applyRemovals_nil (removals : List Str) : applyRemovals removals [] = [] := by
  induction removals with
  | nil => rfl
  | cons r rest ih =>
    simp only [applyRemovals, List.foldl_cons]
    have h1 : pyRemoveAll r [] = [] := by
      simp only [pyRemoveAll]
      split
      · rfl
      · rfl
    rw [h1]
    have h2 : pyStrip [] = [] := rfl
    rw [h2]
    exact ih

/-- Folding literal-character removals from the empty string keeps it
empty. -/
theorem foldl_removeAll_nil (chs : List Str) :
    chs.foldl (fun t ch => pyRemoveAll ch t) [] = [] := by
  induction chs with
  | nil => rfl
  | cons r rest ih =>
    simp only [List.foldl_cons]
    have h : pyRemoveAll r [] = [] := by
      simp only [pyRemoveAll]
      split
      · rfl
      · rfl
    rw [h]
    exact ih

/-- Folding substitutions that fix the empty string keeps it empty. -/
theorem foldl_apply_nil (fs : List (Str → Str)) (h : ∀ f ∈ fs, f [] = []) :
    fs.foldl (fun t f => f t) [] = [] := by
  induction fs with
  | nil => rfl
  | cons f rest ih =>
    simp only [List.foldl_cons]
    rw [h f (List.mem_cons_self f rest)]
    exact ih (fun g hg => h g (List.mem_cons_of_mem f hg))

/-- Cleaning the empty string yields the empty string, provided each
configured regex deletion maps the empty string to itself, as deleting
substitutions do. -/
theorem clean_text_nil (cfg : CleanupConfig)
    (hexpr : ∀ f ∈ cfg.expressions, f [] = []) :
    clean_text cfg [] = [] := by
  simp only [clean_text]
  rw [foldl_removeAll_nil, foldl_apply_nil cfg.expressions hexpr]
  rfl

/-- C5 amended: for a TOC entry whose cleanup-stripped title starts nowhere
on the loadable pages of its range, the section body computed by the
no-numbering segmenter, when the computation returns at all, is the
empty string, not the whole page text from the start page; the entry is
still present in the output mapping. -/
theorem section_empty_when_title_absent (pages : List Str) (cfg : CleanupConfig)
    (entry : TocEntry) (next : Option TocEntry) (b : Str)
    (hexpr : ∀ f ∈ cfg.expressions, f [] = [])
    (habs : titleAbsentOn pages cfg (stripTrailingNumber entry.title)
      (entryPageRange pages entry next) = true)
    (hrun : sectionBodyFor pages cfg entry next = some b) :
    b = [] := by
  simp only [sectionBodyFor] at hrun
  rcases accumulate_absent pages cfg (stripTrailingNumber entry.title)
      (next.map (fun e => e.title)) (entryPageRange pages entry next) habs [] with hacc | hacc
  · rw [hacc] at hrun
    simp only [Option.bind_eq_bind, Option.none_bind] at hrun
    cases hrun
  · rw [hacc] at hrun
    simp only [Option.bind_eq_bind, Option.some_bind] at hrun
    rw [applyRemovals_nil, clean_text_nil cfg hexpr] at hrun
    exact (Option.some.inj hrun).symm

/-- Witness for the amended C5: a one-entry TOC whose title is absent from
the single page yields the empty body. -/
theorem section_empty_when_title_absent_witness :
    titleAbsentOn [['b', 'a', 'r', ' ', 'b', 'a', 'z']] emptyConfig
      (stripTrailingNumber ['F', 'o', 'o'])
      (entryPageRange [['b', 'a', 'r', ' ', 'b', 'a', 'z']] ⟨1, ['F', 'o', 'o'], 1⟩ none) = true ∧
    sectionBodyFor [['b', 'a', 'r', ' ', 'b', 'a', 'z']] emptyConfig
      ⟨1, ['F', 'o', 'o'], 1⟩ none = some [] ∧
    ([] : Str) = [] := by
  refine ⟨by decide, by decide, ?_⟩
  exact section_empty_when_title_absent [['b', 'a', 'r', ' ', 'b', 'a', 'z']] emptyConfig
    ⟨1, ['F', 'o', 'o'], 1⟩ none [] (fun f hf => absurd hf (List.not_mem_nil f))
    (by decide) (by decide)

/-
Claim C10: the Numbering Consistency Repairer rewrites a flagged position
only between two non-blank numberings.
-/

theorem pyEnum_getElem? (l : List α) : ∀ (n i : Nat),
    (pyEnum n l)[i]? = (l[i]?).map (fun a => (n + i, a)) := by
  induction l with
  | nil => intro n i; simp [pyEnum]
  | cons a t ih =>
    intro n i
    cases i with
    | zero => simp [pyEnum]
    | succ k =>
      simp only [pyEnum, List.getElem?_cons_succ, ih (n + 1) k]
      cases t[k]? with
      | none => rfl
      | some b =>
        simp only [Option.map_some']
        rw [Nat.add_assoc, Nat.add_comm 1 k]

theorem mem_pyEnum (l : List α) : ∀ (n j : Nat) (s : α), (j, s) ∈ pyEnum n l →
    n ≤ j ∧ l[j - n]? = some s := by
  induction l with
  | nil => intro n j s h; simp [pyEnum] at h
  | cons a t ih =>
    intro n j s h
    simp only [pyEnum, List.mem_cons] at h
    rcases h with heq | hmem
    · obtain ⟨rfl, rfl⟩ := Prod.mk.inj heq
      refine ⟨Nat.le_refl _, ?_⟩
      simp
    · obtain ⟨hle, hget⟩ := ih (n + 1) j s hmem
      refine ⟨by omega, ?_⟩
      rw [show j - n = (j - (n + 1)) + 1 by omega, List.getElem?_cons_succ]
      exact hget

theorem insertSorted_perm (le : α → α → Bool) (x : α) (l : List α) :
    (insertSorted le x l).Perm (x :: l) := by
  induction l with
  | nil => exact List.Perm.refl _
  | cons y ys ih =>
    simp only [insertSorted]
    split
    · exact List.Perm.refl _
    · exact List.Perm.trans (List.Perm.cons y ih) (List.Perm.swap x y ys)

theorem pySortedList_perm (le : α → α → Bool) (l : List α) :
    (pySortedList le l).Perm l := by
  induction l with
  | nil => exact List.Perm.refl _
  | cons a t ih =>
    simp only [pySortedList, List.foldr_cons] at ih ⊢
    exact List.Perm.trans (insertSorted_perm le a _) (List.Perm.cons a ih)

theorem insertSorted_sorted_nat (x : Nat) (l : List Nat)
    (h : l.Pairwise (· ≤ ·)) :
    (insertSorted (fun a b => decide (a ≤ b)) x l).Pairwise (· ≤ ·) := by
  induction l with
  | nil => simp [insertSorted]
  | cons y ys ih =>
    simp only [insertSorted]
    split
    · rename_i hle
      refine List.Pairwise.cons ?_ h
      intro b hb
      rcases List.mem_cons.mp hb with rfl | hb2
      · exact of_decide_eq_true hle
      · exact Nat.le_trans (of_decide_eq_true hle) ((List.pairwise_cons.mp h).1 b hb2)
    · rename_i hgt
      have hyx : y ≤ x := Nat.le_of_lt (Nat.lt_of_not_le (by simpa using hgt))
      refine List.Pairwise.cons ?_ (ih (List.pairwise_cons.mp h).2)
      intro b hb
      rcases (mem_insertSorted _ x b ys).mp hb with rfl | hb2
      · exact hyx
      · exact (List.pairwise_cons.mp h).1 b hb2

theorem pySortedList_sorted_nat (l : List Nat) :
    (pySortedList (fun a b => decide (a ≤ b)) l).Pairwise (· ≤ ·) := by
  induction l with
  | nil => simp [pySortedList]
  | cons a t ih =>
    simp only [pySortedList, List.foldr_cons] at ih ⊢
    exact insertSorted_sorted_nat a _ ih

theorem mem_pyNatSortedSet (j : Nat) (l : List Nat) :
    j ∈ pyNatSortedSet l ↔ j ∈ l := by
  rw [pyNatSortedSet, mem_pySortedList, List.mem_dedup]

theorem pyNatSortedSet_sorted (l : List Nat) :
    (pyNatSortedSet l).Pairwise (· < ·) := by
  have hle := pySortedList_sorted_nat l.dedup
  have hnodup : (pyNatSortedSet l).Nodup :=
    (pySortedList_perm _ l.dedup).symm.nodup (List.nodup_dedup l)
  rw [pyNatSortedSet] at hnodup ⊢
  exact (hle.and hnodup).imp (fun hab => Nat.lt_of_le_of_ne hab.1 hab.2)

/-- Every index flagged by the validation scan carries a non-blank
numbering in the scanned sequence. -/
theorem validateGo_flags (l : List (Nat × Str)) : ∀ (cur : Str) (flags : List Nat),
    validateGo cur l = some flags →
    ∀ j ∈ flags, ∃ s, (j, s) ∈ l ∧ s ≠ [] := by
  induction l with
  | nil =>
    intro cur flags h j hj
    simp only [validateGo] at h
    injection h with h2
    subst h2
    cases hj
  | cons p rest ih =>
    obtain ⟨j0, nxt⟩ := p
    intro cur flags h j hj
    simp only [validateGo] at h
    split at h
    · obtain ⟨s, hs, hne⟩ := ih cur flags h j hj
      exact ⟨s, List.mem_cons_of_mem _ hs, hne⟩
    · rename_i hblank
      cases hg : generate_next_numberings cur with
      | none =>
        simp only [hg] at h
        exact Option.noConfusion h
      | some g =>
        simp only [hg] at h
        by_cases hmem : nxt ∈ g
        · rw [if_pos hmem] at h
          obtain ⟨s, hs, hne⟩ := ih nxt flags h j hj
          exact ⟨s, List.mem_cons_of_mem _ hs, hne⟩
        · rw [if_neg hmem] at h
          cases hv : validateGo cur rest with
          | none =>
            simp only [hv, Option.map_none'] at h
            exact Option.noConfusion h
          | some f =>
            rw [hv] at h
            simp only [Option.map_some'] at h
            injection h with h2
            subst h2
            rcases List.mem_cons.mp hj with rfl | hj2
            · exact ⟨nxt, List.mem_cons_self _ _, hblank⟩
            · obtain ⟨s, hs, hne⟩ := ih cur f hv j hj2
              exact ⟨s, List.mem_cons_of_mem _ hs, hne⟩

theorem findNonLogical_flags (l : List (Nat × Str)) (flags : List Nat)
    (h : findNonLogical l = some flags) :
    ∀ j ∈ flags, ∃ s, (j, s) ∈ l ∧ s ≠ [] := by
  induction l generalizing flags with
  | nil =>
    intro j hj
    simp only [findNonLogical] at h
    injection h with h2
    subst h2
    cases hj
  | cons p rest ih =>
    obtain ⟨j0, n⟩ := p
    intro j hj
    simp only [findNonLogical] at h
    split at h
    · obtain ⟨s, hs, hne⟩ := ih flags h j hj
      exact ⟨s, List.mem_cons_of_mem _ hs, hne⟩
    · obtain ⟨s, hs, hne⟩ := validateGo_flags rest n flags h j hj
      exact ⟨s, List.mem_cons_of_mem _ hs, hne⟩

/-- A reconstruction step either leaves the array alone or writes at its
own index. -/
theorem reconStep_cases (recon : List Str) (j : Nat) (r : List Str)
    (h : reconStep recon j = some r) :
    r = recon ∨ ∃ v, r = recon.set j v := by
  simp only [reconStep] at h
  cases hp : ((recon.take j).reverse).find? (fun s => s ≠ []) with
  | none =>
    cases hq : (recon.drop (j + 1)).find? (fun s => s ≠ []) with
    | none =>
      simp only [hp, hq] at h
      exact Or.inl (Option.some.inj h).symm
    | some nv =>
      simp only [hp, hq] at h
      exact Or.inl (Option.some.inj h).symm
  | some pv =>
    cases hq : (recon.drop (j + 1)).find? (fun s => s ≠ []) with
    | none =>
      simp only [hp, hq] at h
      exact Or.inl (Option.some.inj h).symm
    | some nv =>
      simp only [hp, hq] at h
      cases hpp : parseNumbering pv with
      | none =>
        simp only [hpp] at h
        exact Option.noConfusion h
      | some pp =>
        simp only [hpp] at h
        cases hnp : parseNumbering nv with
        | none =>
          simp only [hnp] at h
          exact Option.noConfusion h
        | some np =>
          simp only [hnp] at h
          exact Or.inr ⟨reconValue pp np, (Option.some.inj h).symm⟩

/-- With only blank entries after the index, the reconstruction step at
that index does nothing. -/
theorem reconStep_no_next (recon : List Str) (idx : Nat)
    (h : ∀ k, idx < k → k < recon.length → recon.getD k [] = []) :
    reconStep recon idx = some recon := by
  have hn : (recon.drop (idx + 1)).find? (fun s => s ≠ []) = none := by
    rw [List.find?_eq_none]
    intro x hx
    obtain ⟨i, hi⟩ : ∃ i : Nat, (recon.drop (idx + 1))[i]? = some x := by
      obtain ⟨i, hlt, hget⟩ := List.mem_iff_getElem.mp hx
      exact ⟨i, by rw [List.getElem?_eq_getElem hlt, hget]⟩
    rw [List.getElem?_drop] at hi
    have hlen : idx + 1 + i < recon.length := (List.getElem?_eq_some.mp hi).1
    have hblank := h (idx + 1 + i) (by omega) hlen
    rw [List.getD_eq_getElem?_getD, hi] at hblank
    simp only [Option.getD_some] at hblank
    simp [hblank]
  simp only [reconStep, hn]
  cases ((recon.take idx).reverse).find? (fun s => s ≠ []) <;> rfl

/-- With only blank entries before the index, the reconstruction step at
that index does nothing. -/
theorem reconStep_no_prev (recon : List Str) (idx : Nat)
    (h : ∀ k, k < idx → recon.getD k [] = []) :
    reconStep recon idx = some recon := by
  have hp : ((recon.take idx).reverse).find? (fun s => s ≠ []) = none := by
    rw [List.find?_eq_none]
    intro x hx
    rw [List.mem_reverse] at hx
    obtain ⟨i, hlt, hget⟩ := List.mem_iff_getElem.mp hx
    have hi : (recon.take idx)[i]? = some x := by rw [List.getElem?_eq_getElem hlt, hget]
    have hilt : i < idx := by
      have := hlt
      simp only [List.length_take] at this
      omega
    rw [List.getElem?_take, if_pos hilt] at hi
    have hblank := h i hilt
    rw [List.getD_eq_getElem?_getD, hi] at hblank
    simp only [Option.getD_some] at hblank
    simp [hblank]
  simp only [reconStep, hp]

/-- Positions other than the flagged ones are never written. -/
theorem foldlM_reconStep_other (idx : Nat) : ∀ (flags : List Nat) (recon recon' : List Str),
    List.foldlM reconStep recon flags = some recon' →
    (∀ j ∈ flags, j ≠ idx) →
    recon'.getD idx [] = recon.getD idx [] := by
  intro flags
  induction flags with
  | nil =>
    intro recon recon' h _
    simp only [List.foldlM_nil] at h
    rw [(Option.some.inj h)]
  | cons j rest ih =>
    intro recon recon' h hne
    simp only [List.foldlM_cons] at h
    cases hstep : reconStep recon j with
    | none => rw [hstep] at h; cases h
    | some r =>
      rw [hstep] at h
      simp only [Option.some_bind, Option.bind_eq_bind] at h
      have hrest := ih r recon' h (fun i hi => hne i (List.mem_cons_of_mem j hi))
      rw [hrest]
      rcases reconStep_cases recon j r hstep with hcase | ⟨v, hcase⟩
      · rw [hcase]
      · rw [hcase, List.getD_eq_getElem?_getD, List.getD_eq_getElem?_getD,
          List.getElem?_set_ne (hne j (List.mem_cons_self j rest))]

/-- When every entry after the index is blank, a sorted ascending flag
fold never changes the entry at the index. -/
theorem foldlM_reconStep_right (idx : Nat) : ∀ (flags : List Nat) (recon recon' : List Str),
    List.foldlM reconStep recon flags = some recon' →
    flags.Pairwise (· < ·) →
    (∀ k, idx < k → k < recon.length → recon.getD k [] = []) →
    recon'.getD idx [] = recon.getD idx [] := by
  intro flags
  induction flags with
  | nil =>
    intro recon recon' h _ _
    simp only [List.foldlM_nil] at h
    rw [(Option.some.inj h)]
  | cons j rest ih =>
    intro recon recon' h hsort hblank
    rcases Nat.lt_trichotomy j idx with hj | hj | hj
    · simp only [List.foldlM_cons] at h
      cases hstep : reconStep recon j with
      | none => rw [hstep] at h; cases h
      | some r =>
        rw [hstep] at h
        simp only [Option.some_bind, Option.bind_eq_bind] at h
        rcases reconStep_cases recon j r hstep with hcase | ⟨v, hcase⟩
        · subst hcase
          exact ih _ _ h (List.pairwise_cons.mp hsort).2 hblank
        · subst hcase
          have hblank2 : ∀ k, idx < k → k < (recon.set j v).length →
              (recon.set j v).getD k [] = [] := by
            intro k hk hklen
            rw [List.getD_eq_getElem?_getD, List.getElem?_set_ne (by omega)]
            rw [List.length_set] at hklen
            have := hblank k hk hklen
            rw [List.getD_eq_getElem?_getD] at this
            exact this
          have := ih (recon.set j v) recon' h (List.pairwise_cons.mp hsort).2 hblank2
          rw [this, List.getD_eq_getElem?_getD, List.getD_eq_getElem?_getD,
            List.getElem?_set_ne (by omega)]
    · subst hj
      simp only [List.foldlM_cons, reconStep_no_next recon j hblank,
        Option.some_bind, Option.bind_eq_bind] at h
      exact ih recon recon' h (List.pairwise_cons.mp hsort).2 hblank
    · refine foldlM_reconStep_other idx (j :: rest) recon recon' h ?_
      intro i hi
      rcases List.mem_cons.mp hi with rfl | hi2
      · omega
      · have := (List.pairwise_cons.mp hsort).1 i hi2
        omega

/-- When every entry before the index is blank and no flag lies before
the index, the fold never changes the entry at the index. -/
theorem foldlM_reconStep_left (idx : Nat) : ∀ (flags : List Nat) (recon recon' : List Str),
    List.foldlM reconStep recon flags = some recon' →
    flags.Pairwise (· < ·) →
    (∀ k, k < idx → recon.getD k [] = []) →
    (∀ j ∈ flags, ¬j < idx) →
    recon'.getD idx [] = recon.getD idx [] := by
  intro flags
  induction flags with
  | nil =>
    intro recon recon' h _ _ _
    simp only [List.foldlM_nil] at h
    rw [(Option.some.inj h)]
  | cons j rest ih =>
    intro recon recon' h hsort hblank hge
    rcases Nat.lt_trichotomy j idx with hj | hj | hj
    · exact absurd hj (hge j (List.mem_cons_self j rest))
    · subst hj
      simp only [List.foldlM_cons, reconStep_no_prev recon j hblank,
        Option.some_bind, Option.bind_eq_bind] at h
      exact ih recon recon' h (List.pairwise_cons.mp hsort).2 hblank
        (fun i hi => hge i (List.mem_cons_of_mem _ hi))
    · refine foldlM_reconStep_other idx (j :: rest) recon recon' h ?_
      intro i hi
      rcases List.mem_cons.mp hi with rfl | hi2
      · omega
      · have := (List.pairwise_cons.mp hsort).1 i hi2
        omega

/-- Splitting a key at its first space and rejoining reproduces the key. -/
theorem pySplitOnceSpace_reconstruct (key : Str) :
    (match (pySplitOnceSpace key).2 with
     | some tail2 => (pySplitOnceSpace key).1 ++ ' ' :: tail2
     | none => (pySplitOnceSpace key).1) = key := by
  induction key with
  | nil => rfl
  | cons c cs ih =>
    simp only [pySplitOnceSpace]
    by_cases hc : c = ' '
    · rw [if_pos hc, hc]
      rfl
    · rw [if_neg hc]
      cases hs : (pySplitOnceSpace cs).2 with
      | none =>
        rw [hs] at ih
        simpa using ih
      | some tail2 =>
        rw [hs] at ih
        simpa using ih

/-- A non-blank extracted numbering is the part of the key before its
first space. -/
theorem extractedNumbering_head (key : Str) (h : extractedNumbering key ≠ []) :
    extractedNumbering key = (pySplitOnceSpace key).1 := by
  by_cases hcond : pyRemoveAll ['.'] (pySplitOnceSpace key).1 ≠ [] ∧
      (pyRemoveAll ['.'] (pySplitOnceSpace key).1).all (fun c => c.isDigit)
  · simp only [extractedNumbering, if_pos hcond]
  · exfalso
    apply h
    simp only [extractedNumbering, if_neg hcond]

/-- C10: in find_and_replace_numberings, a position is rewritten only
between a non-blank numbering before it and one after it; in
particular an entry with no later non-blank numbering in the sequence,
such as the last numbered title, keeps its original key, hence its
original numbering, in the output key list. -/
theorem flagged_entry_without_neighbour_kept (data : SecMap) (ks : List Str) (idx : Nat)
    (hks : franKeys data = some ks) (hidx : idx < data.length)
    (hside : (∀ k, k < idx → (franNumberings data).getD k [] = []) ∨
      (∀ k, idx < k → k < (franNumberings data).length →
        (franNumberings data).getD k [] = [])) :
    ks[idx]? = (data.map Prod.fst)[idx]? := by
  simp only [franKeys, Option.bind_eq_bind] at hks
  cases hrecon : franRecon data with
  | none => rw [hrecon] at hks; cases hks
  | some recon =>
    rw [hrecon] at hks
    simp only [Option.some_bind] at hks
    obtain rfl := (Option.some.inj hks).symm
    simp only [franRecon, Option.bind_eq_bind] at hrecon
    cases hflags : franFlags data with
    | none => rw [hflags] at hrecon; cases hrecon
    | some flags =>
      rw [hflags] at hrecon
      simp only [Option.some_bind] at hrecon
      simp only [franFlags] at hflags
      cases hraw : findNonLogical (pyEnum 0 (franNumberings data)) with
      | none => rw [hraw] at hflags; cases hflags
      | some raw =>
        rw [hraw] at hflags
        simp only [Option.map_some'] at hflags
        obtain rfl := (Option.some.inj hflags).symm
        have hsort : (pyNatSortedSet raw).Pairwise (· < ·) := pyNatSortedSet_sorted raw
        have hunchanged : recon.getD idx [] = (franNumberings data).getD idx [] := by
          rcases hside with hleft | hright
          · refine foldlM_reconStep_left idx (pyNatSortedSet raw) _ recon hrecon hsort
              hleft ?_
            intro j hj hjlt
            rw [mem_pyNatSortedSet] at hj
            obtain ⟨s, hs, hsne⟩ := findNonLogical_flags _ raw hraw j hj
            obtain ⟨-, hget⟩ := mem_pyEnum _ 0 j s hs
            rw [Nat.sub_zero] at hget
            have := hleft j hjlt
            rw [List.getD_eq_getElem?_getD, hget] at this
            exact hsne this
          · exact foldlM_reconStep_right idx (pyNatSortedSet raw) _ recon hrecon hsort
              hright
        have hdata : data[idx]? = some (data.get ⟨idx, hidx⟩) := List.getElem?_eq_getElem hidx
        rw [List.getElem?_map, pyEnum_getElem?]
        rw [List.getElem?_map, hdata]
        simp only [Option.map_some', Nat.zero_add]
        set kv := data.get ⟨idx, hidx⟩ with hkv
        by_cases hblank : extractedNumbering kv.1 = []
        · simp [hblank]
        · rw [if_neg hblank]
          have hnum : (franNumberings data).getD idx [] = extractedNumbering kv.1 := by
            rw [franNumberings, List.getD_eq_getElem?_getD, List.getElem?_map, hdata]
            rfl
          have hrecidx : recon.getD idx [] = (pySplitOnceSpace kv.1).1 := by
            rw [hunchanged, hnum, extractedNumbering_head kv.1 hblank]
          rw [hrecidx]
          have hrec := pySplitOnceSpace_reconstruct kv.1
          cases hs : (pySplitOnceSpace kv.1).2 with
          | none =>
            rw [hs] at hrec
            exact congrArg some hrec
          | some tail2 =>
            rw [hs] at hrec
            exact congrArg some hrec

/-- Witness for C10 on a one-entry mapping: the only numbered title has no
later numbering and keeps its key. -/
theorem flagged_entry_without_neighbour_kept_witness :
    ∃ ks, franKeys [(['1', '.', ' ', 'A'], ['x'])] = some ks ∧
      ks[0]? = ([(['1', '.', ' ', 'A'], ['x'])].map Prod.fst)[0]? := by
  refine ⟨[['1', '.', ' ', 'A']], by decide, ?_⟩
  exact flagged_entry_without_neighbour_kept [(['1', '.', ' ', 'A'], ['x'])]
    [['1', '.', ' ', 'A']] 0 (by decide) (by decide) (Or.inl (by omega))

/-
Claim C4: the companion repair scenario 1. Intro, 1.1. Background,
2.1. Oops.
-/

/-- The C4 scenario mapping: titles 1. Intro, 1.1. Background, 2.1. Oops
with distinct bodies. -/
def c4input : SecMap :=
  [ (['1', '.', ' ', 'I', 'n', 't', 'r', 'o'], ['a']),
    (['1', '.', '1', '.', ' ', 'B', 'a', 'c', 'k', 'g', 'r', 'o', 'u', 'n', 'd'], ['b']),
    (['2', '.', '1', '.', ' ', 'O', 'o', 'p', 's'], ['c']) ]

/-- The validation of the C4 scenario flags exactly index 2: 1.1. is a
legal successor of 1. but 2.1. is not a legal successor of 1.1. -/
theorem c4_flags_eval : franFlags c4input = some [2] := by
  have hg1 : generate_next_numberings ['1', '.'] = some (pySortedSet (possibilities [1])) := by
    rw [generate_next_numberings, show parseNumbering ['1', '.'] = some [1] by decide]
    rfl
  have hm1 : ['1', '.', '1', '.'] ∈ pySortedSet (possibilities [1]) :=
    (mem_pySortedSet _ _).mpr (by decide)
  have hg2 : generate_next_numberings ['1', '.', '1', '.'] =
      some (pySortedSet (possibilities [1, 1])) := by
    rw [generate_next_numberings, show parseNumbering ['1', '.', '1', '.'] = some [1, 1]
      by decide]
    rfl
  have hm2 : ['2', '.', '1', '.'] ∉ pySortedSet (possibilities [1, 1]) := by
    intro hmem
    have := (mem_pySortedSet _ _).mp hmem
    revert this
    decide
  have hnums : franNumberings c4input =
      [['1', '.'], ['1', '.', '1', '.'], ['2', '.', '1', '.']] := by decide
  have hne1 : (['1', '.'] : Str) ≠ [] := by decide
  have hne2 : (['1', '.', '1', '.'] : Str) ≠ [] := by decide
  have hne3 : (['2', '.', '1', '.'] : Str) ≠ [] := by decide
  rw [franFlags, hnums]
  simp only [pyEnum, findNonLogical, validateGo, hg1, hg2, hm1, hm2, hne1, hne2, hne3,
    if_true, if_false, ite_true, ite_false, Option.map_some']
  decide

/-- The repairer returns the C4 scenario unchanged: index 2 is flagged but
has no later non-blank numbering, so nothing is rewritten. -/
theorem c4_output_eval : find_and_replace_numberings c4input = some c4input := by
  rw [find_and_replace_numberings, franKeys, franRecon, c4_flags_eval]
  decide

/-- C4 counterexample: for the titles 1. Intro, 1.1. Background, 2.1. Oops,
find_and_replace_numberings returns the mapping unchanged, and the third
entry keeps its original numbering 2.1. in the output, contradicting the
claim that its numbering is rewritten to a reconstructed value. -/
theorem repairer_scenario_kept_counterexample :
    find_and_replace_numberings c4input = some c4input ∧
    (c4input.map Prod.fst).getD 2 [] = ['2', '.', '1', '.', ' ', 'O', 'o', 'p', 's'] := by
  exact ⟨c4_output_eval, by decide⟩

/-- C4 amended: the repairer flags 2.1. as a non-logical successor of 1.1.,
but because the flagged entry is the last numbered title, with no later
non-blank numbering to interpolate with, its numbering is left
unchanged: the entry keeps the key 2.1. Oops in the output mapping. -/
theorem repairer_scenario_flagged_not_rewritten :
    franFlags c4input = some [2] ∧
    find_and_replace_numberings c4input = some c4input :=
  ⟨c4_flags_eval, c4_output_eval⟩

/-
Claim C3: first-hit short-circuiting in the TOC Rectifier's numbering
recovery.
-/

/-- The one-page document of the C3 scenario: 1 Intro and 1. Intro here. -/
def c3pages : List Str :=
  [['1', ' ', 'I', 'n', 't', 'r', 'o', ' ', 'a', 'n', 'd', ' ',
    '1', '.', ' ', 'I', 'n', 't', 'r', 'o', ' ', 'h', 'e', 'r', 'e']]

/-- The single TOC entry of the C3 scenario, titled Intro on page 1. -/
def c3toc : List TocEntry := [⟨1, ['I', 'n', 't', 'r', 'o'], 1⟩]

/-- C3: on a single TOC entry titled Intro over a one-page document reading
1 Intro and 1. Intro here, the rectifier rewrites the entry's title
twice: first to 1 Intro via the coarsest numbering pattern, then to
1. Intro h via the second numbering pattern, whose page scan runs again
because the numbering-pattern loop has no break after a successful
match; the first successful match does not terminate the remaining
search and the title is not rewritten at most once. -/
theorem rectifier_rewrites_twice :
    search_and_replace_numbered_titles c3pages emptyConfig true c3toc [] =
      some ([⟨1, ['1', '.', ' ', 'I', 'n', 't', 'r', 'o', ' ', 'h'], 1⟩], [],
        [['1', ' ', 'I', 'n', 't', 'r', 'o'],
         ['1', '.', ' ', 'I', 'n', 't', 'r', 'o', ' ', 'h']]) ∧
    (['1', ' ', 'I', 'n', 't', 'r', 'o'] : Str) ≠
      ['1', '.', ' ', 'I', 'n', 't', 'r', 'o', ' ', 'h'] := by
  exact ⟨by decide, by decide⟩

/-
Claim C1: the Pipeline Orchestrator's record shape and per-stage
degradation.
-/

theorem stage3Val_nil (o3 : Option SecMap) : stage3Val [] o3 = [] := by
  simp [stage3Val]

theorem stage4Val_nil (nnf : Option Bool) (o4 : Option SecMap) : stage4Val nnf [] o4 = [] := by
  simp [stage4Val]

theorem stage5Val_nil (o5 : Option SecMap) : stage5Val [] o5 = [] := by
  simp [stage5Val]

theorem stage6Val_nil (nnf : Option Bool) (o6 : Option SecMap) : stage6Val nnf [] o6 = [] := by
  simp [stage6Val]

/-- C1: for every single-document run, whatever each wrapped stage does,
extract_all is a total function of the stage outcomes (no exception
escapes it) and returns a record with exactly the four fields metadata,
leveled_text, processed_text, cleaned_text in that fixed order; each
field degrades when its producing stage fails: a failed metadata
extraction leaves all four fields at their defaults, a failed tree
stage leaves the nested tree empty, a failed structuring start leaves
the flat mapping empty, a failed cleaned-text extraction leaves the
cleaned text empty, and every failed intermediate stage passes its
input mapping through unchanged. -/
theorem extract_all_record (nnf : Option Bool) (o2 o3 o4 o5 o6 : Option SecMap)
    (o7 : Option PyVal) (oMeta : Option SecMap) (oClean : Option Str) :
    (extract_all nnf o2 o3 o4 o5 o6 o7 oMeta oClean).map Prod.fst =
      [metadataKey, leveledKey, processedKey, cleanedKey] ∧
    (oMeta = none → extract_all nnf o2 o3 o4 o5 o6 o7 oMeta oClean =
      [(metadataKey, secMapVal []), (leveledKey, PyVal.d []),
       (processedKey, secMapVal []), (cleanedKey, PyVal.s [])]) ∧
    (o7 = none → (extract_all nnf o2 o3 o4 o5 o6 o7 oMeta oClean)[1]? =
      some (leveledKey, PyVal.d [])) ∧
    (nnf = none ∨ o2 = none → (extract_all nnf o2 o3 o4 o5 o6 o7 oMeta oClean)[2]? =
      some (processedKey, secMapVal [])) ∧
    (oClean = none → (extract_all nnf o2 o3 o4 o5 o6 o7 oMeta oClean)[3]? =
      some (cleanedKey, PyVal.s [])) ∧
    (∀ prev, o3 = none → stage3Val prev o3 = prev) ∧
    (∀ prev, o4 = none → stage4Val nnf prev o4 = prev) ∧
    (∀ prev, o5 = none → stage5Val prev o5 = prev) ∧
    (∀ prev, o6 = none → stage6Val nnf prev o6 = prev) := by
  refine ⟨rfl, ?_, ?_, ?_, ?_, ?_, ?_, ?_, ?_⟩
  · intro h
    subst h
    rfl
  · intro h
    subst h
    cases oMeta with
    | none => rfl
    | some m =>
      simp only [extract_all, stage7Val]
      split <;> rfl
  · intro h
    have hs2 : stage2Val nnf o2 = [] := by
      rcases h with h | h
      · subst h
        rfl
      · subst h
        cases nnf <;> rfl
    cases oMeta with
    | none => rfl
    | some m =>
      simp only [extract_all, hs2, stage3Val_nil, stage4Val_nil, stage5Val_nil, stage6Val_nil]
      rfl
  · intro h
    subst h
    cases oMeta <;> rfl
  · intro prev h
    subst h
    simp only [stage3Val]
    split <;> rfl
  · intro prev h
    subst h
    simp only [stage4Val]
    split <;> rfl
  · intro prev h
    subst h
    simp only [stage5Val]
    split <;> rfl
  · intro prev h
    subst h
    simp only [stage6Val]
    split <;> rfl

/-- Witness for C1 at the all-failed outcome: every stage raising still
yields the four-field record with default values. -/
theorem extract_all_record_witness :
    ((extract_all none none none none none none none none none).map Prod.fst =
      [metadataKey, leveledKey, processedKey, cleanedKey] ∧
    ((none : Option SecMap) = none → extract_all none none none none none none none none none =
      [(metadataKey, secMapVal []), (leveledKey, PyVal.d []),
       (processedKey, secMapVal []), (cleanedKey, PyVal.s [])]) ∧
    ((none : Option PyVal) = none →
      (extract_all none none none none none none none none none)[1]? =
      some (leveledKey, PyVal.d [])) ∧
    ((none : Option Bool) = none ∨ (none : Option SecMap) = none →
      (extract_all none none none none none none none none none)[2]? =
      some (processedKey, secMapVal [])) ∧
    ((none : Option Str) = none →
      (extract_all none none none none none none none none none)[3]? =
      some (cleanedKey, PyVal.s [])) ∧
    (∀ prev, (none : Option SecMap) = none → stage3Val prev none = prev) ∧
    (∀ prev, (none : Option SecMap) = none → stage4Val none prev none = prev) ∧
    (∀ prev, (none : Option SecMap) = none → stage5Val prev none = prev) ∧
    (∀ prev, (none : Option SecMap) = none → stage6Val none prev none = prev)) :=
  extract_all_record none none none none none none none none none

/-- C5 counterexample: with one TOC entry titled Foo assigned to a one-page
document whose cleaned page text is bar baz, the title is found nowhere,
and the resulting section body is the empty string rather than the whole
cleaned page text from the start page; the claim that the body equals
the page text, and that no entry yields an empty section, fails. -/
theorem segmenter_absent_title_counterexample :
    structure_raw_text_by_toc_no_numbering [⟨1, ['F', 'o', 'o'], 1⟩]
      [['b', 'a', 'r', ' ', 'b', 'a', 'z']] emptyConfig =
      some [(['F', 'o', 'o'], [])] ∧
    clean_text emptyConfig ['b', 'a', 'r', ' ', 'b', 'a', 'z'] =
      ['b', 'a', 'r', ' ', 'b', 'a', 'z'] ∧
    ([] : Str) ≠ ['b', 'a', 'r', ' ', 'b', 'a', 'z'] := by
  refine ⟨by decide, by decide, by decide⟩

end PyPdf
